import Mathlib

/-!
# route-emitter `matchers` and the file-server redirect handler

A shallow embedding of

* `route-emitter/routingtable/matchers/emit_messages_matcher.go`
  (`MatchMessagesToEmit`, `messagesToEmitMatcher.Match`, `matchArrs`, `ByMessage`), and
* the redirect handler built by `initializeServer` in
  `fileserver/cmd/file-server/main.go`.

Conventions of the embedding.

* A Go `string` is a sequence of bytes, `List Nat` (each element a number
  below 256); `<` on strings is the bytewise lexicographic order.
* The elements of all `[]string` values live in one string storage, `Mem`.
  A `[]string` value is a `Slice`: nil, or a window `ptr, len` onto the
  storage.  Two windows may overlap, as two Go slices of one backing array
  do.  `sort.Sort(sort.StringSlice(s))` rewrites the window of `s` in place;
  every function that sorts takes the storage and returns it.
* What a message holds at a given moment is a `MessageValue`: its `URIs`
  read from the storage (`none` for the nil slice) and its other fields.
  `fmt.Sprintf("%v", m)` and `reflect.DeepEqual` depend on the value only;
  `DeepEqual` tells a nil slice from an empty non-nil one, `%v` does not.
* `routingtable.RegistryMessage` is declared outside the files at hand.  Its
  `URIs []string` field is the only one the matcher touches; the remaining
  fields are a type parameter `F` (compared with `=`, which stands for
  `reflect.DeepEqual` on them), and the way `%v` prints them is a parameter
  `StructFormat F`.
* The `[]RegistryMessage` collections are lists of messages: the matcher
  never writes to the caller's collections, it sorts fresh copies.
* `sort.Sort` is the standard library's.  Its contract (the result is a
  rearrangement of the input that is ascending for `Less`; not guaranteed
  stable; the data is reached through `sort.Interface` alone) is the
  structure `SortImpl`; the algorithm the library runs on short slices,
  `insertionSort`, is one instance, `goSort`.
* A run-time panic (index out of range) is the result `none`.
-/

namespace RouteEmitter

/-! ## Go strings -/

/-- A Go string: an immutable sequence of bytes. -/
abbrev GoString := List Nat

/-- The bytes of an ASCII literal. -/
def bytes (s : String) : GoString := s.toList.map Char.toNat

/-- Go's `<` on strings: compare byte by byte, the first difference decides,
and a proper prefix is smaller. -/
def strLess : GoString → GoString → Bool
  | [], [] => false
  | [], _ :: _ => true
  | _ :: _, [] => false
  | a :: as, b :: bs =>
    if a < b then true else if b < a then false else strLess as bs

/-! ## `sort.Sort` -/

/-- What `sort.Sort` asks of `Less`: a strict weak order. -/
structure StrictWeakOrder {α : Type} (less : α → α → Bool) : Prop where
  asymm : ∀ a b, less a b = true → less b a = false
  negTrans : ∀ a b c, less a b = false → less b c = false → less a c = false

/-- The contract of `sort.Sort(data sort.Interface)`: the result is a
rearrangement of the input, and for a strict weak order `less` no later
element is `less` than an earlier one.  Nothing is promised about the order
of elements that `less` does not separate.  The sort reaches the data through
`Len`, `Less` and `Swap` alone (`byLess`): where the elements are compared by
what `f` reads off them, it moves them as it would move the readings. -/
structure SortImpl where
  run : {α : Type} → (α → α → Bool) → List α → List α
  perm : ∀ {α : Type} (less : α → α → Bool) (xs : List α), (run less xs).Perm xs
  sorted : ∀ {α : Type} (less : α → α → Bool) (xs : List α), StrictWeakOrder less →
    (run less xs).Pairwise (fun a b => less b a = false)
  byLess : ∀ {α β : Type} (f : α → β) (less : β → β → Bool) (xs : List α),
    (run (fun a b => less (f a) (f b)) xs).map f = run less (xs.map f)

/-- Inner loop of the library's `insertionSort`,
`for j := i; j > a && data.Less(j, j-1); j-- { data.Swap(j, j-1) }`:
the element `x` at index `i` moves left past every neighbour it is `less`
than.  The second argument is the part of the slice before `i`, nearest
neighbour first; so is the result, with `x` in its place. -/
def sinkDown {α : Type} (less : α → α → Bool) (x : α) : List α → List α
  | [] => [x]
  | y :: ys => if less x y then y :: sinkDown less x ys else x :: y :: ys

/-- The library's `insertionSort(data, 0, n)`,
`for i := a + 1; i < b; i++ { ...inner loop... }`. -/
def insertionSort {α : Type} (less : α → α → Bool) (xs : List α) : List α :=
  (xs.foldl (fun done x => sinkDown less x done) []).reverse

/-! ## String storage and slices -/

/-- The storage that holds the elements of all `[]string` values. -/
abbrev Mem := List GoString

/-- A `[]string` value: the nil slice, or the window of `len` elements that
starts at `ptr` in the storage. -/
inductive Slice where
  | nil
  | window (ptr len : Nat)
deriving DecidableEq

/-- The elements a slice holds at the moment: `none` for the nil slice. -/
def readSlice (mem : Mem) : Slice → Option (List GoString)
  | .nil => none
  | .window ptr len => some ((mem.drop ptr).take len)

/-- `sort.Sort(sort.StringSlice(s))`: the elements in the window of `s` are
sorted in place; a nil slice has none. -/
def sortStringSlice (S : SortImpl) (mem : Mem) : Slice → Mem
  | .nil => mem
  | .window ptr len =>
    mem.take ptr ++ S.run strLess ((mem.drop ptr).take len) ++ mem.drop (ptr + len)

/-! ## Messages -/

/-- The `routingtable.RegistryMessage` struct: the `URIs []string` field and
the remaining fields `rest`. -/
structure RegistryMessage (F : Type) where
  URIs : Slice
  rest : F
deriving DecidableEq

/-- What a message holds at a given moment: the elements of `URIs` (`none`
for the nil slice) and the remaining fields. -/
structure MessageValue (F : Type) where
  URIs : Option (List GoString)
  rest : F
deriving DecidableEq

/-- The value of a message under the present storage. -/
def readMessage {F : Type} (mem : Mem) (m : RegistryMessage F) : MessageValue F :=
  { URIs := readSlice mem m.URIs, rest := m.rest }

/-- The `routingtable.MessagesToEmit` struct: four `[]RegistryMessage`. -/
structure MessagesToEmit (F : Type) where
  RegistrationMessages : List (RegistryMessage F)
  UnregistrationMessages : List (RegistryMessage F)
  InternalRegistrationMessages : List (RegistryMessage F)
  InternalUnregistrationMessages : List (RegistryMessage F)
deriving DecidableEq

/-- How `%v` prints the fields of a `RegistryMessage` other than `URIs`:
`before` is the text of the fields declared before `URIs` and `after` that
of the fields declared after it, separators included. -/
structure StructFormat (F : Type) where
  before : F → GoString
  after : F → GoString

/-- The `%v` form of a `[]string`: `[e0 e1 ...]`, elements verbatim and
separated by one space; a nil slice prints as `[]`. -/
def fmtStrings (uris : Option (List GoString)) : GoString :=
  [91] ++ List.intercalate [32] (uris.getD []) ++ [93]

/-- The `%v` form of a message, `fmt.Sprintf("%v", m)`: the fields in
declaration order between braces. -/
def fmtV {F : Type} (L : StructFormat F) (m : MessageValue F) : GoString :=
  [123] ++ L.before m.rest ++ fmtStrings m.URIs ++ L.after m.rest ++ [125]

/-- The comparison `ByMessage.Less` makes between two elements, under the
present storage. -/
def ByMessage.lessMessage {F : Type} (L : StructFormat F) (mem : Mem)
    (x y : RegistryMessage F) : Bool :=
  strLess (fmtV L (readMessage mem x)) (fmtV L (readMessage mem y))

/-- `func (a ByMessage) Less(i, j int) bool`:
`fmt.Sprintf("%v", a[i]) < fmt.Sprintf("%v", a[j])`; `none` when an index is
out of range. -/
def ByMessage.Less {F : Type} (L : StructFormat F) (mem : Mem)
    (a : List (RegistryMessage F)) (i j : Nat) : Option Bool :=
  match a[i]?, a[j]? with
  | some x, some y => some (ByMessage.lessMessage L mem x y)
  | _, _ => none

/-- The loop
`for _, message := range coll { sort.Sort(sort.StringSlice(message.URIs)); fixed = append(fixed, message) }`.
`message` is a copy of the struct and shares the elements of `URIs` with the
caller's message, so the sort writes to the storage.  The state is the
storage and `fixed`. -/
def sortAndAppend {F : Type} (S : SortImpl) (mem : Mem) (coll : List (RegistryMessage F)) :
    Mem × List (RegistryMessage F) :=
  coll.foldl
    (fun st message => (sortStringSlice S st.1 message.URIs, st.2 ++ [message]))
    (mem, [])

/-- The loop
`for i := 0; i < len(fixedActual); i++ { if !reflect.DeepEqual(fixedActual[i], fixedExpected[i]) { return false } }`
followed by `return true`.  The third argument is `fixedActual` from index
`i` on. -/
def deepEqualFrom {F : Type} [DecidableEq F] (mem : Mem)
    (fixedExpected : List (RegistryMessage F)) :
    List (RegistryMessage F) → Nat → Option Bool
  | [], _ => some true
  | x :: rest, i =>
    match fixedExpected[i]? with
    | none => none
    | some y =>
      if readMessage mem x = readMessage mem y then
        deepEqualFrom mem fixedExpected rest (i + 1)
      else some false

/-- Outcome of `matchArrs`: the returned boolean (`none` for a panic) and the
storage afterwards. -/
structure ArrsOutcome where
  result : Option Bool
  mem : Mem

/-- `func (m *messagesToEmitMatcher) matchArrs(actual, expected []routingtable.RegistryMessage) bool`. -/
def matchArrs {F : Type} [DecidableEq F] (S : SortImpl) (L : StructFormat F) (mem : Mem)
    (actual expected : List (RegistryMessage F)) : ArrsOutcome :=
  if actual.length ≠ expected.length then
    ⟨some false, mem⟩
  else
    let (mem, fixedActual) := sortAndAppend S mem actual
    let (mem, fixedExpected) := sortAndAppend S mem expected
    let fixedActual := S.run (ByMessage.lessMessage L mem) fixedActual
    let fixedExpected := S.run (ByMessage.lessMessage L mem) fixedExpected
    ⟨deepEqualFrom mem fixedExpected fixedActual 0, mem⟩

/-- The error `Match` can return. -/
inductive MatchError where
  | notMessagesToEmit
deriving DecidableEq

/-- A value of type `interface{}`: a `routingtable.MessagesToEmit`, or a
value of any other dynamic type (`O`), the nil interface included. -/
inductive AnyValue (F O : Type) where
  | messagesToEmit (m : MessagesToEmit F)
  | other (v : O)

/-- The `messagesToEmitMatcher` struct. -/
structure messagesToEmitMatcher (F : Type) where
  expected : MessagesToEmit F

/-- `func MatchMessagesToEmit(messages routingtable.MessagesToEmit) *messagesToEmitMatcher`. -/
def MatchMessagesToEmit {F : Type} (messages : MessagesToEmit F) : messagesToEmitMatcher F :=
  { expected := messages }

/-- Outcome of `Match`: the returned pair (`none` for a panic) and the
storage afterwards. -/
structure MatchOutcome where
  result : Option (Bool × Option MatchError)
  mem : Mem

/-- `func (m *messagesToEmitMatcher) Match(a interface{}) (success bool, err error)`.
The four `matchArrs` calls run one after the other on the same storage,
each seeing what the earlier ones wrote, and all four run before the
results are combined. -/
def messagesToEmitMatcher.Match {F O : Type} [DecidableEq F] (S : SortImpl)
    (L : StructFormat F) (mem : Mem) (m : messagesToEmitMatcher F) (a : AnyValue F O) :
    MatchOutcome :=
  match a with
  | .other _ => ⟨some (false, some .notMessagesToEmit), mem⟩
  | .messagesToEmit actual =>
    let registrations :=
      matchArrs S L mem actual.RegistrationMessages m.expected.RegistrationMessages
    let unregistrations :=
      matchArrs S L registrations.mem actual.UnregistrationMessages
        m.expected.UnregistrationMessages
    let internalRegistrations :=
      matchArrs S L unregistrations.mem actual.InternalRegistrationMessages
        m.expected.InternalRegistrationMessages
    let internalUnregistrations :=
      matchArrs S L internalRegistrations.mem actual.InternalUnregistrationMessages
        m.expected.InternalUnregistrationMessages
    { result := do
        let registrationsMatch ← registrations.result
        let unregistrationsMatch ← unregistrations.result
        let internalRegistrationsMatch ← internalRegistrations.result
        let internalUnregistrationsMatch ← internalUnregistrations.result
        some (registrationsMatch && unregistrationsMatch && internalRegistrationsMatch
          && internalUnregistrationsMatch, none)
      mem := internalUnregistrations.mem }

/-! ## Reference notions the claims are stated with -/

/-- A list of strings put in ascending order. -/
def ascending (x : List GoString) : List GoString :=
  x.insertionSort (fun a b => strLess b a = false)

/-- A message value with its address list in ascending order. -/
def normalize {F : Type} (v : MessageValue F) : MessageValue F :=
  { v with URIs := v.URIs.map ascending }

/-- A collection of message values after sorting each message's address list
and then sorting the messages by their `%v` form. -/
def canonical {F : Type} (S : SortImpl) (L : StructFormat F)
    (vals : List (MessageValue F)) : List (MessageValue F) :=
  S.run (fun x y => strLess (fmtV L x) (fmtV L y)) (vals.map normalize)

/-- Equality of two collections in the words of the data model: equal sizes
and, in canonical form, the same message at every index.  The messages are
read before the call. -/
def collectionsEqual {F : Type} (S : SortImpl) (L : StructFormat F) (mem : Mem)
    (a e : List (RegistryMessage F)) : Prop :=
  a.length = e.length ∧
    ∀ i, i < a.length →
      (canonical S L (a.map (readMessage mem)))[i]?
        = (canonical S L (e.map (readMessage mem)))[i]?

/-- Equality of two batches in the words of the data model: each of the four
collections equal. -/
def batchesEqual {F : Type} (S : SortImpl) (L : StructFormat F) (mem : Mem)
    (A E : MessagesToEmit F) : Prop :=
  collectionsEqual S L mem A.RegistrationMessages E.RegistrationMessages ∧
  collectionsEqual S L mem A.UnregistrationMessages E.UnregistrationMessages ∧
  collectionsEqual S L mem A.InternalRegistrationMessages E.InternalRegistrationMessages ∧
  collectionsEqual S L mem A.InternalUnregistrationMessages E.InternalUnregistrationMessages

/-- One address list is a rearrangement of another: the same elements in
some order; a nil slice rearranges to a nil slice only. -/
def slicePerm : Option (List GoString) → Option (List GoString) → Prop
  | none, none => True
  | some x, some y => x.Perm y
  | _, _ => False

/-- Two message values that agree in every field except for the order of
`URIs`. -/
def sameUpToURIOrder {F : Type} (a e : MessageValue F) : Prop :=
  a.rest = e.rest ∧ slicePerm a.URIs e.URIs

/-- An address list is in ascending order. -/
def sliceSorted : Option (List GoString) → Prop
  | none => True
  | some x => x.Pairwise (fun a b => strLess b a = false)

/-- What the in-place sort is to do to one message: `URIs` becomes an
ascending rearrangement of what it was, the other fields are as they were. -/
def onlyURIsSorted {F : Type} (before after : MessageValue F) : Prop :=
  after.rest = before.rest ∧ slicePerm after.URIs before.URIs ∧ sliceSorted after.URIs

/-- The window of a slice lies within a storage of `n` elements. -/
def Slice.inBounds (n : Nat) : Slice → Prop
  | .nil => True
  | .window ptr len => ptr + len ≤ n

/-- Two slices have no element of the storage in common. -/
def Slice.apart : Slice → Slice → Prop
  | .window p n, .window q k => n = 0 ∨ k = 0 ∨ p + n ≤ q ∨ q + k ≤ p
  | _, _ => True

/-- The slices lie within a storage of `n` elements, and any two of them are
the same slice or have no element in common. -/
def separate (n : Nat) (slices : List Slice) : Prop :=
  (∀ s ∈ slices, s.inBounds n) ∧ ∀ s ∈ slices, ∀ t ∈ slices, s = t ∨ s.apart t

instance (n : Nat) (s : Slice) : Decidable (s.inBounds n) := by
  cases s <;> unfold Slice.inBounds <;> infer_instance

instance (s t : Slice) : Decidable (s.apart t) := by
  cases s <;> cases t <;> unfold Slice.apart <;> infer_instance

instance (n : Nat) (slices : List Slice) : Decidable (separate n slices) := by
  unfold separate
  infer_instance

/-- The `URIs` slices of the messages of a collection. -/
def collectionSlices {F : Type} (coll : List (RegistryMessage F)) : List Slice :=
  coll.map (fun m => m.URIs)

/-- The `URIs` slices of all messages of a batch. -/
def batchSlices {F : Type} (A : MessagesToEmit F) : List Slice :=
  collectionSlices A.RegistrationMessages ++ collectionSlices A.UnregistrationMessages
    ++ collectionSlices A.InternalRegistrationMessages
    ++ collectionSlices A.InternalUnregistrationMessages

/-- A message struct with one string field, `Host`, declared before `URIs`:
the instance of the format the concrete evaluations use. -/
def hostThenURIs : StructFormat GoString where
  before := fun host => host ++ [32]
  after := fun _ => []

/-! ## Sample batches for the concrete evaluations -/

/-- A storage in which every sample message has elements of its own. -/
def sampleMem : Mem :=
  [bytes "b.io", bytes "a.io", bytes "a.io", bytes "b.io", bytes "c.io"]

/-- A message for host `10.0.0.1` with two addresses, not in order. -/
def sampleWeb : RegistryMessage GoString :=
  ⟨.window 0 2, bytes "10.0.0.1"⟩

/-- The message `sampleWeb` with its addresses in order, in elements of its own. -/
def sampleWebSorted : RegistryMessage GoString :=
  ⟨.window 2 2, bytes "10.0.0.1"⟩

/-- A message for host `10.0.0.2` with one address. -/
def sampleApi : RegistryMessage GoString :=
  ⟨.window 4 1, bytes "10.0.0.2"⟩

/-- An expected batch: two external registrations, one internal. -/
def sampleExpected : MessagesToEmit GoString :=
  ⟨[sampleWebSorted, sampleApi], [], [sampleApi], []⟩

/-- The batch `sampleExpected` with the addresses of one message in another order. -/
def sampleActual : MessagesToEmit GoString :=
  ⟨[sampleWeb, sampleApi], [], [sampleApi], []⟩

/-- The batch `sampleActual` with its external registrations in another order. -/
def sampleReordered : MessagesToEmit GoString :=
  ⟨[sampleApi, sampleWeb], [], [sampleApi], []⟩

/-- Two messages whose `URIs` are `base[0:2]` and `base[1:3]` of one backing
array `base`, which starts at index 0 of the storage. -/
def overlapping : List (RegistryMessage GoString) :=
  [⟨.window 0 2, bytes "h1"⟩, ⟨.window 1 2, bytes "h2"⟩]

/-! ## The file server's redirect handler -/

/-- `strings.Split(s, sep)` for a one-byte separator: the pieces of `s`
between occurrences of `sep`; always at least one piece. -/
def stringsSplit (sep : Nat) : GoString → List GoString
  | [] => [[]]
  | c :: cs =>
    if c = sep then [] :: stringsSplit sep cs
    else
      match stringsSplit sep cs with
      | [] => [[c]]
      | seg :: segs => (c :: seg) :: segs

/-- `http.StatusMovedPermanently`. -/
def StatusMovedPermanently : Nat := 301

/-- The lower-case hexadecimal digit for a number below 16. -/
def hexDigit (d : Nat) : Nat := if d < 10 then 48 + d else 87 + d

/-- `hexEscapeNonASCII` of `net/http`: every byte from `0x80` on becomes `%`
and its two hexadecimal digits, the other bytes stay. -/
def hexEscapeNonASCII : GoString → GoString
  | [] => []
  | b :: s =>
    if 128 ≤ b then 37 :: hexDigit (b / 16) :: hexDigit (b % 16) :: hexEscapeNonASCII s
    else b :: hexEscapeNonASCII s

/-- What a handler answers with: the status code and the `Location` header. -/
structure Response where
  status : Nat
  location : GoString
deriving DecidableEq

/-- `http.Redirect(w, r, url, code)` for a `url` that names its scheme: the
`Location` header is set to `hexEscapeNonASCII(url)` and the status `code`
is written. -/
def httpRedirect (url : GoString) (code : Nat) : Response :=
  { status := code, location := hexEscapeNonASCII url }

/-- The handler of the `redirect-server` member built by `initializeServer`
when `tlsConfig != nil`; `host` is `r.Host` and `urlString` is
`r.URL.String()`.  `none` is an index-out-of-range panic. -/
def initializeServer.redirectHandler (serverAddressTls host urlString : GoString) :
    Option Response := do
  let httpHostPort := stringsSplit 58 host
  let tlsHostPort := stringsSplit 58 serverAddressTls
  let httpHost ← httpHostPort[0]?
  let tlsPort ← tlsHostPort[1]?
  let httpsHost := httpHost ++ [58] ++ tlsPort
  some (httpRedirect (bytes "https://" ++ httpsHost ++ urlString) StatusMovedPermanently)

/-! ## Notions the proofs are organised with -/

/-- The in-place sorts of a list of slices, one after the other. -/
def sortAll (S : SortImpl) (mem : Mem) (slices : List Slice) : Mem :=
  slices.foldl (sortStringSlice S) mem

/-- The storage `after` keeps the size of `before`, and each of the slices
reads in it as it read in `before` or as that in ascending order. -/
def settled (slices : List Slice) (before after : Mem) : Prop :=
  after.length = before.length ∧
    ∀ t ∈ slices, readSlice after t = readSlice before t
      ∨ readSlice after t = (readSlice before t).map ascending

/-- The first `matchArrs` call of `Match`. -/
def registrationsOutcome {F : Type} [DecidableEq F] (S : SortImpl) (L : StructFormat F)
    (mem : Mem) (E A : MessagesToEmit F) : ArrsOutcome :=
  matchArrs S L mem A.RegistrationMessages E.RegistrationMessages

/-- The second `matchArrs` call of `Match`. -/
def unregistrationsOutcome {F : Type} [DecidableEq F] (S : SortImpl) (L : StructFormat F)
    (mem : Mem) (E A : MessagesToEmit F) : ArrsOutcome :=
  matchArrs S L (registrationsOutcome S L mem E A).mem A.UnregistrationMessages
    E.UnregistrationMessages

/-- The third `matchArrs` call of `Match`. -/
def internalRegistrationsOutcome {F : Type} [DecidableEq F] (S : SortImpl)
    (L : StructFormat F) (mem : Mem) (E A : MessagesToEmit F) : ArrsOutcome :=
  matchArrs S L (unregistrationsOutcome S L mem E A).mem A.InternalRegistrationMessages
    E.InternalRegistrationMessages

/-- The fourth `matchArrs` call of `Match`. -/
def internalUnregistrationsOutcome {F : Type} [DecidableEq F] (S : SortImpl)
    (L : StructFormat F) (mem : Mem) (E A : MessagesToEmit F) : ArrsOutcome :=
  matchArrs S L (internalRegistrationsOutcome S L mem E A).mem
    A.InternalUnregistrationMessages E.InternalUnregistrationMessages

/-! ## The order on strings -/

theorem strLess_irrefl (a : GoString) : strLess a a = false := by
  induction a with
  | nil => rfl
  | cons x xs ih => simp [strLess, ih]

theorem strLess_asymm (a b : GoString) : strLess a b = true → strLess b a = false := by
  induction a generalizing b with
  | nil => cases b <;> simp [strLess]
  | cons x xs ih =>
    cases b with
    | nil => simp [strLess]
    | cons y ys =>
      simp only [strLess]
      intro h
      by_cases hxy : x < y
      · have hyx : ¬ y < x := by omega
        simp [hyx, hxy]
      · by_cases hyx : y < x
        · simp [hxy, hyx] at h
        · simp only [hxy, hyx, if_false] at h ⊢
          exact ih ys h

theorem strLess_total (a b : GoString) :
    strLess a b = false → strLess b a = false → a = b := by
  induction a generalizing b with
  | nil => cases b <;> simp [strLess]
  | cons x xs ih =>
    cases b with
    | nil => simp [strLess]
    | cons y ys =>
      simp only [strLess]
      intro h1 h2
      by_cases hxy : x < y
      · simp [hxy] at h1
      · by_cases hyx : y < x
        · simp [hyx] at h2
        · simp only [hxy, hyx, if_false] at h1 h2
          have hx : x = y := by omega
          rw [hx, ih ys h1 h2]

theorem strLess_trans (a b c : GoString) :
    strLess a b = true → strLess b c = true → strLess a c = true := by
  induction a generalizing b c with
  | nil =>
    cases b with
    | nil => simp [strLess]
    | cons y ys => cases c <;> simp [strLess]
  | cons x xs ih =>
    cases b with
    | nil => simp [strLess]
    | cons y ys =>
      cases c with
      | nil => simp [strLess]
      | cons z zs =>
        simp only [strLess]
        intro h1 h2
        by_cases hxy : x < y
        · by_cases hyz : y < z
          · have : x < z := by omega
            simp [this]
          · by_cases hzy : z < y
            · simp [hyz, hzy] at h2
            · have : x < z := by omega
              simp [this]
        · by_cases hyx : y < x
          · simp [hxy, hyx] at h1
          · simp only [hxy, hyx, if_false] at h1
            by_cases hyz : y < z
            · have : x < z := by omega
              simp [this]
            · by_cases hzy : z < y
              · simp [hyz, hzy] at h2
              · simp only [hyz, hzy, if_false] at h2
                have h3 : ¬ x < z := by omega
                have h4 : ¬ z < x := by omega
                simp only [h3, h4, if_false]
                exact ih ys zs h1 h2

theorem strLess_negTrans (a b c : GoString) :
    strLess a b = false → strLess b c = false → strLess a c = false := by
  intro h1 h2
  cases h3 : strLess a c with
  | false => rfl
  | true =>
    exfalso
    cases h4 : strLess b a with
    | false =>
      have hab : a = b := strLess_total a b h1 h4
      subst hab
      rw [h3] at h2
      exact Bool.noConfusion h2
    | true =>
      have := strLess_trans b a c h4 h3
      rw [this] at h2
      exact Bool.noConfusion h2

theorem strLess_strictWeakOrder : StrictWeakOrder strLess :=
  ⟨strLess_asymm, strLess_negTrans⟩

/-- Bytewise `strLess` is the lexicographic order on byte sequences. -/
theorem strLess_iff_lex (a b : GoString) :
    strLess a b = true ↔ List.Lex (fun x y : Nat => x < y) a b := by
  induction a generalizing b with
  | nil =>
    cases b with
    | nil => simp [strLess]
    | cons y ys => simp [strLess, List.Lex.nil]
  | cons x xs ih =>
    cases b with
    | nil => simp [strLess]
    | cons y ys =>
      simp only [strLess]
      constructor
      · intro h
        by_cases hxy : x < y
        · exact List.Lex.rel hxy
        · by_cases hyx : y < x
          · simp [hxy, hyx] at h
          · simp only [hxy, hyx, if_false] at h
            have hx : x = y := by omega
            subst hx
            exact List.Lex.cons ((ih ys).1 h)
      · intro h
        cases h with
        | rel hxy => simp [hxy]
        | cons h' =>
          have hxx : ¬ x < x := by omega
          simp only [hxx, if_false]
          exact (ih ys).2 h'

/-! ## The library's insertion sort meets the contract -/

theorem sinkDown_perm {α : Type} (less : α → α → Bool) (x : α) (ys : List α) :
    (sinkDown less x ys).Perm (x :: ys) := by
  induction ys with
  | nil => exact List.Perm.refl _
  | cons y ys ih =>
    simp only [sinkDown]
    split
    · exact (List.Perm.cons y ih).trans (List.Perm.swap x y ys)
    · exact List.Perm.refl _

theorem sinkDown_pairwise {α : Type} (less : α → α → Bool) (hless : StrictWeakOrder less)
    (x : α) (ys : List α) (hys : ys.Pairwise (fun a b => less a b = false)) :
    (sinkDown less x ys).Pairwise (fun a b => less a b = false) := by
  induction ys with
  | nil => simp [sinkDown]
  | cons y ys ih =>
    rw [List.pairwise_cons] at hys
    simp only [sinkDown]
    split
    · rename_i hxy
      rw [List.pairwise_cons]
      refine ⟨?_, ih hys.2⟩
      intro z hz
      have hz' := (sinkDown_perm less x ys).mem_iff.1 hz
      rcases List.mem_cons.1 hz' with rfl | hz''
      · exact hless.asymm _ _ hxy
      · exact hys.1 z hz''
    · rename_i hxy
      have hxy' : less x y = false := by simpa using hxy
      rw [List.pairwise_cons]
      refine ⟨?_, List.pairwise_cons.2 hys⟩
      intro z hz
      rcases List.mem_cons.1 hz with rfl | hz'
      · exact hxy'
      · exact hless.negTrans _ _ _ hxy' (hys.1 z hz')

theorem foldl_sinkDown_perm {α : Type} (less : α → α → Bool) (xs done : List α) :
    (xs.foldl (fun done x => sinkDown less x done) done).Perm (xs.reverse ++ done) := by
  induction xs generalizing done with
  | nil => simp
  | cons x xs ih =>
    simp only [List.foldl_cons, List.reverse_cons, List.append_assoc, List.singleton_append]
    exact (ih _).trans (List.Perm.append_left _ (sinkDown_perm less x done))

theorem foldl_sinkDown_pairwise {α : Type} (less : α → α → Bool)
    (hless : StrictWeakOrder less) (xs done : List α)
    (hdone : done.Pairwise (fun a b => less a b = false)) :
    (xs.foldl (fun done x => sinkDown less x done) done).Pairwise
      (fun a b => less a b = false) := by
  induction xs generalizing done with
  | nil => simpa using hdone
  | cons x xs ih =>
    simp only [List.foldl_cons]
    exact ih _ (sinkDown_pairwise less hless x done hdone)

theorem insertionSort_perm {α : Type} (less : α → α → Bool) (xs : List α) :
    (insertionSort less xs).Perm xs := by
  unfold insertionSort
  refine (List.reverse_perm _).trans ?_
  have h := foldl_sinkDown_perm less xs []
  simp only [List.append_nil] at h
  exact h.trans (List.reverse_perm _)

theorem insertionSort_sorted {α : Type} (less : α → α → Bool) (xs : List α)
    (hless : StrictWeakOrder less) :
    (insertionSort less xs).Pairwise (fun a b => less b a = false) := by
  unfold insertionSort
  rw [List.pairwise_reverse]
  exact foldl_sinkDown_pairwise less hless xs [] List.Pairwise.nil

theorem sinkDown_map {α β : Type} (f : α → β) (less : β → β → Bool) (x : α) (ys : List α) :
    (sinkDown (fun a b => less (f a) (f b)) x ys).map f = sinkDown less (f x) (ys.map f) := by
  induction ys with
  | nil => rfl
  | cons y ys ih =>
    simp only [sinkDown, List.map_cons]
    split
    · simp only [List.map_cons, ih]
    · simp only [List.map_cons]

theorem foldl_sinkDown_map {α β : Type} (f : α → β) (less : β → β → Bool)
    (xs done : List α) :
    (xs.foldl (fun done x => sinkDown (fun a b => less (f a) (f b)) x done) done).map f
      = (xs.map f).foldl (fun done x => sinkDown less x done) (done.map f) := by
  induction xs generalizing done with
  | nil => rfl
  | cons x xs ih =>
    simp only [List.foldl_cons, List.map_cons]
    rw [ih, sinkDown_map]

theorem insertionSort_map {α β : Type} (f : α → β) (less : β → β → Bool) (xs : List α) :
    (insertionSort (fun a b => less (f a) (f b)) xs).map f = insertionSort less (xs.map f) := by
  unfold insertionSort
  rw [List.map_reverse, foldl_sinkDown_map]
  rfl

/-- The sort the library runs on short slices, as an instance of the
contract. -/
def goSort : SortImpl where
  run := fun less xs => insertionSort less xs
  perm := fun less xs => insertionSort_perm less xs
  sorted := fun less xs h => insertionSort_sorted less xs h
  byLess := fun f less xs => insertionSort_map f less xs

/-! ## Ascending order of strings -/

/-- Two ascending rearrangements of the same strings are the same list. -/
theorem sorted_perm_unique (x y : List GoString) (hp : x.Perm y)
    (hx : x.Pairwise (fun a b => strLess b a = false))
    (hy : y.Pairwise (fun a b => strLess b a = false)) : x = y := by
  haveI : IsAntisymm GoString (fun a b => strLess b a = false) :=
    ⟨fun a b h1 h2 => strLess_total a b h2 h1⟩
  exact List.eq_of_perm_of_sorted hp hx hy

theorem ascending_perm (x : List GoString) : (ascending x).Perm x :=
  List.perm_insertionSort _ x

theorem ascending_sorted (x : List GoString) :
    (ascending x).Pairwise (fun a b => strLess b a = false) := by
  haveI : IsTotal GoString (fun a b => strLess b a = false) :=
    ⟨fun a b => by
      cases h : strLess b a with
      | false => exact Or.inl rfl
      | true => exact Or.inr (strLess_asymm b a h)⟩
  haveI : IsTrans GoString (fun a b => strLess b a = false) :=
    ⟨fun a b c h1 h2 => strLess_negTrans c b a h2 h1⟩
  exact List.sorted_insertionSort _ x

/-- Whatever the sort, the strings come out in the one ascending order. -/
theorem run_strLess_eq_ascending (S : SortImpl) (x : List GoString) :
    S.run strLess x = ascending x :=
  sorted_perm_unique _ _ ((S.perm strLess x).trans (ascending_perm x).symm)
    (S.sorted strLess x strLess_strictWeakOrder) (ascending_sorted x)

theorem ascending_ascending (x : List GoString) : ascending (ascending x) = ascending x :=
  sorted_perm_unique _ _ (ascending_perm _) (ascending_sorted _) (ascending_sorted x)

theorem ascending_eq_of_perm (x y : List GoString) (h : x.Perm y) :
    ascending x = ascending y :=
  sorted_perm_unique _ _ (((ascending_perm x).trans h).trans (ascending_perm y).symm)
    (ascending_sorted x) (ascending_sorted y)

/-! ## Sorting a slice in place -/

theorem sortStringSlice_window (S : SortImpl) (mem : Mem) (p n : Nat) :
    sortStringSlice S mem (.window p n)
      = mem.take p ++ ascending ((mem.drop p).take n) ++ mem.drop (p + n) := by
  simp only [sortStringSlice, run_strLess_eq_ascending]

theorem length_ascending (x : List GoString) : (ascending x).length = x.length :=
  (ascending_perm x).length_eq

theorem length_sortStringSlice (S : SortImpl) (mem : Mem) (s : Slice)
    (h : s.inBounds mem.length) : (sortStringSlice S mem s).length = mem.length := by
  cases s with
  | nil => rfl
  | window p n =>
    have hb : p + n ≤ mem.length := h
    rw [sortStringSlice_window]
    simp only [List.length_append, length_ascending, List.length_take, List.length_drop]
    omega

/-- Reading the slice that was just sorted gives its old elements in
ascending order. -/
theorem readSlice_sortStringSlice_self (S : SortImpl) (mem : Mem) (s : Slice)
    (h : s.inBounds mem.length) :
    readSlice (sortStringSlice S mem s) s = (readSlice mem s).map ascending := by
  cases s with
  | nil => rfl
  | window p n =>
    have hb : p + n ≤ mem.length := h
    rw [sortStringSlice_window]
    simp only [readSlice, Option.map_some', Option.some.injEq]
    have h1 : (mem.take p).length = p := by
      rw [List.length_take]; omega
    have h2 : (ascending ((mem.drop p).take n)).length = n := by
      rw [length_ascending, List.length_take, List.length_drop]; omega
    rw [List.append_assoc, List.drop_left' h1, List.take_left' h2]

/-- Sorting one slice leaves the elements of a slice apart from it alone. -/
theorem readSlice_sortStringSlice_apart (S : SortImpl) (mem : Mem) (s t : Slice)
    (hs : s.inBounds mem.length) (ht : t.inBounds mem.length) (h : s.apart t) :
    readSlice (sortStringSlice S mem s) t = readSlice mem t := by
  cases s with
  | nil => rfl
  | window p n =>
    cases t with
    | nil => rfl
    | window q k =>
      have hb : p + n ≤ mem.length := hs
      have hq : q + k ≤ mem.length := ht
      have h1 : (mem.take p).length = p := by
        rw [List.length_take]; omega
      have h2 : (ascending ((mem.drop p).take n)).length = n := by
        rw [length_ascending, List.length_take, List.length_drop]; omega
      rw [sortStringSlice_window]
      simp only [readSlice, Option.some.injEq]
      apply List.ext_getElem?
      intro i
      simp only [List.getElem?_take, List.getElem?_drop]
      by_cases hik : i < k
      · simp only [hik, if_true]
        rcases h with h | h | h | h
        · subst h
          have h0 : ascending ((mem.drop p).take 0) = [] := by
            apply List.eq_nil_of_length_eq_zero
            rw [h2]
          rw [h0, List.append_nil]
          simp only [Nat.add_zero, List.take_append_drop]
        · omega
        · -- the window of `t` starts after the window of `s`
          have hlen : (mem.take p ++ ascending ((mem.drop p).take n)).length = p + n := by
            rw [List.length_append, h1, h2]
          have hge : (mem.take p ++ ascending ((mem.drop p).take n)).length ≤ q + i := by
            omega
          rw [List.getElem?_append_right hge, hlen, List.getElem?_drop]
          congr 1
          omega
        · -- the window of `t` ends before the window of `s`
          have hlt : q + i < (mem.take p).length := by omega
          rw [List.append_assoc, List.getElem?_append_left hlt, List.getElem?_take]
          have : q + i < p := by omega
          simp only [this, if_true]
      · simp only [hik, if_false]
/-! ## The loops of `matchArrs` -/

theorem map_ascending_idem (o : Option (List GoString)) :
    (o.map ascending).map ascending = o.map ascending := by
  cases o with
  | none => rfl
  | some x => simp only [Option.map_some', ascending_ascending]

theorem settled_refl (slices : List Slice) (mem : Mem) : settled slices mem mem :=
  ⟨rfl, fun _ _ => Or.inl rfl⟩

theorem settled_trans (slices : List Slice) (m₁ m₂ m₃ : Mem)
    (h₁ : settled slices m₁ m₂) (h₂ : settled slices m₂ m₃) : settled slices m₁ m₃ := by
  refine ⟨h₂.1.trans h₁.1, ?_⟩
  intro t ht
  rcases h₁.2 t ht with a | a <;> rcases h₂.2 t ht with b | b
  · exact Or.inl (b.trans a)
  · exact Or.inr (by rw [b, a])
  · exact Or.inr (b.trans a)
  · exact Or.inr (by rw [b, a, map_ascending_idem])

/-- In ascending order a slice reads the same before and after. -/
theorem settled_normal (slices : List Slice) (m₁ m₂ : Mem) (h : settled slices m₁ m₂)
    (t : Slice) (ht : t ∈ slices) :
    (readSlice m₂ t).map ascending = (readSlice m₁ t).map ascending := by
  rcases h.2 t ht with a | a
  · rw [a]
  · rw [a, map_ascending_idem]

theorem settled_sortStringSlice (S : SortImpl) (slices : List Slice) (mem : Mem)
    (hsep : separate mem.length slices) (s : Slice) (hs : s ∈ slices) :
    settled slices mem (sortStringSlice S mem s) := by
  refine ⟨length_sortStringSlice S mem s (hsep.1 s hs), ?_⟩
  intro t ht
  rcases hsep.2 s hs t ht with h | h
  · subst h
    exact Or.inr (readSlice_sortStringSlice_self S mem s (hsep.1 s hs))
  · exact Or.inl (readSlice_sortStringSlice_apart S mem s t (hsep.1 s hs) (hsep.1 t ht) h)

/-- After the slices of `done` have been sorted in place, one after the
other, each of them reads as its old elements in ascending order, provided
that the slices are separate. -/
theorem settled_sortAll (S : SortImpl) (slices : List Slice) (done : List Slice) (mem : Mem)
    (hsep : separate mem.length slices) (hdone : ∀ s ∈ done, s ∈ slices) :
    settled slices mem (sortAll S mem done)
      ∧ ∀ s ∈ done, readSlice (sortAll S mem done) s = (readSlice mem s).map ascending := by
  induction done generalizing mem with
  | nil => exact ⟨settled_refl _ _, fun _ h => absurd h (List.not_mem_nil _)⟩
  | cons d ds ih =>
    have hd : d ∈ slices := hdone d (List.mem_cons_self d ds)
    have hstep := settled_sortStringSlice S slices mem hsep d hd
    have hsep' : separate (sortStringSlice S mem d).length slices := by
      rw [hstep.1]; exact hsep
    obtain ⟨hrest, hread⟩ := ih (sortStringSlice S mem d) hsep'
      (fun s hs => hdone s (List.mem_cons_of_mem d hs))
    have hall : sortAll S mem (d :: ds) = sortAll S (sortStringSlice S mem d) ds := rfl
    rw [hall]
    refine ⟨settled_trans _ _ _ _ hstep hrest, ?_⟩
    intro s hs
    rcases List.mem_cons.1 hs with h | h
    · subst h
      have h1 := readSlice_sortStringSlice_self S mem s (hsep.1 s hd)
      rcases hrest.2 s hd with a | a
      · rw [a, h1]
      · rw [a, h1, map_ascending_idem]
    · rw [hread s h]
      exact settled_normal slices _ _ hstep s (hdone s (List.mem_cons_of_mem d h))

theorem foldl_sortAndAppend {F : Type} (S : SortImpl) (coll : List (RegistryMessage F))
    (mem : Mem) (fixed : List (RegistryMessage F)) :
    coll.foldl
        (fun st message => (sortStringSlice S st.1 message.URIs, st.2 ++ [message]))
        (mem, fixed)
      = (sortAll S mem (collectionSlices coll), fixed ++ coll) := by
  induction coll generalizing mem fixed with
  | nil => simp [sortAll, collectionSlices]
  | cons m ms ih =>
    rw [List.foldl_cons, ih]
    simp [sortAll, collectionSlices]

theorem sortAndAppend_eq {F : Type} (S : SortImpl) (mem : Mem)
    (coll : List (RegistryMessage F)) :
    sortAndAppend S mem coll = (sortAll S mem (collectionSlices coll), coll) := by
  unfold sortAndAppend
  rw [foldl_sortAndAppend]
  rfl

theorem deepEqualFrom_eq {F : Type} [DecidableEq F] (mem : Mem)
    (fixedExpected : List (RegistryMessage F)) (rest : List (RegistryMessage F)) (i : Nat)
    (hlen : rest.length = (fixedExpected.drop i).length) :
    deepEqualFrom mem fixedExpected rest i
      = some (decide (rest.map (readMessage mem)
          = (fixedExpected.drop i).map (readMessage mem))) := by
  induction rest generalizing i with
  | nil =>
    have h0 : fixedExpected.drop i = [] := List.length_eq_zero.1 hlen.symm
    simp [deepEqualFrom, h0]
  | cons x rest ih =>
    have hi : i < fixedExpected.length := by
      simp only [List.length_cons, List.length_drop] at hlen
      omega
    have hdrop : fixedExpected.drop i = fixedExpected[i] :: fixedExpected.drop (i + 1) :=
      List.drop_eq_getElem_cons hi
    have hget : fixedExpected[i]? = some fixedExpected[i] := List.getElem?_eq_getElem hi
    have hlen' : rest.length = (fixedExpected.drop (i + 1)).length := by
      simp only [List.length_cons, List.length_drop] at hlen ⊢
      omega
    simp only [deepEqualFrom, hget]
    by_cases hxy : readMessage mem x = readMessage mem fixedExpected[i]
    · rw [if_pos hxy, ih (i + 1) hlen', hdrop, List.map_cons, List.map_cons, hxy]
      congr 1
      apply Bool.decide_congr
      constructor
      · intro h; rw [h]
      · intro h; exact (List.cons.inj h).2
    · rw [if_neg hxy, hdrop, List.map_cons, List.map_cons]
      congr 1
      symm
      apply decide_eq_false
      intro h
      exact hxy (List.cons.inj h).1

/-- What `matchArrs` returns and leaves behind, whatever the slices: with
different lengths false and the storage untouched; otherwise the storage
after both loops, and whether the two sorted copies then read the same,
index by index. -/
theorem matchArrs_eq {F : Type} [DecidableEq F] (S : SortImpl) (L : StructFormat F)
    (mem : Mem) (actual expected : List (RegistryMessage F)) :
    matchArrs S L mem actual expected
      = if actual.length ≠ expected.length then ⟨some false, mem⟩
        else
          ⟨some (decide
            ((S.run (ByMessage.lessMessage L
                (sortAll S (sortAll S mem (collectionSlices actual))
                  (collectionSlices expected))) actual).map
              (readMessage (sortAll S (sortAll S mem (collectionSlices actual))
                  (collectionSlices expected)))
            = (S.run (ByMessage.lessMessage L
                (sortAll S (sortAll S mem (collectionSlices actual))
                  (collectionSlices expected))) expected).map
              (readMessage (sortAll S (sortAll S mem (collectionSlices actual))
                  (collectionSlices expected))))),
           sortAll S (sortAll S mem (collectionSlices actual))
             (collectionSlices expected)⟩ := by
  unfold matchArrs
  by_cases hlen : actual.length = expected.length
  · simp only [hlen, ne_eq, not_true_eq_false, if_false, sortAndAppend_eq]
    congr 1
    have hl : (S.run (ByMessage.lessMessage L
        (sortAll S (sortAll S mem (collectionSlices actual))
          (collectionSlices expected))) actual).length
        = ((S.run (ByMessage.lessMessage L
        (sortAll S (sortAll S mem (collectionSlices actual))
          (collectionSlices expected))) expected).drop 0).length := by
      rw [List.drop_zero, (S.perm _ _).length_eq, (S.perm _ _).length_eq, hlen]
    have h := deepEqualFrom_eq
      (sortAll S (sortAll S mem (collectionSlices actual)) (collectionSlices expected))
      _ _ 0 hl
    simp only [List.drop_zero] at h
    exact h
  · simp only [ne_eq, hlen, not_false_eq_true, if_true]

theorem matchArrs_result_isSome {F : Type} [DecidableEq F] (S : SortImpl)
    (L : StructFormat F) (mem : Mem) (actual expected : List (RegistryMessage F)) :
    ∃ b, (matchArrs S L mem actual expected).result = some b := by
  rw [matchArrs_eq]
  split
  · exact ⟨false, rfl⟩
  · exact ⟨_, rfl⟩

theorem matchArrs_false_of_length_ne {F : Type} [DecidableEq F] (S : SortImpl)
    (L : StructFormat F) (mem : Mem) (actual expected : List (RegistryMessage F))
    (h : actual.length ≠ expected.length) :
    matchArrs S L mem actual expected = ⟨some false, mem⟩ := by
  rw [matchArrs_eq, if_pos h]
/-! ## `matchArrs` and `Match` on separate slices -/

theorem canonical_length {F : Type} (S : SortImpl) (L : StructFormat F)
    (vals : List (MessageValue F)) : (canonical S L vals).length = vals.length := by
  unfold canonical
  rw [(S.perm _ _).length_eq, List.length_map]

theorem canonical_perm {F : Type} (S : SortImpl) (L : StructFormat F)
    (vals : List (MessageValue F)) : (canonical S L vals).Perm (vals.map normalize) :=
  S.perm _ _

theorem mem_collectionSlices {F : Type} (coll : List (RegistryMessage F))
    (x : RegistryMessage F) (hx : x ∈ coll) : x.URIs ∈ collectionSlices coll :=
  List.mem_map.2 ⟨x, hx, rfl⟩

/-- On separate slices `matchArrs` leaves every message of the two
collections with its old addresses in ascending order. -/
theorem matchArrs_mem_settled {F : Type} [DecidableEq F] (S : SortImpl) (L : StructFormat F)
    (slices : List Slice) (mem₀ mem : Mem) (actual expected : List (RegistryMessage F))
    (hsep : separate mem₀.length slices) (hset : settled slices mem₀ mem)
    (hA : ∀ s ∈ collectionSlices actual, s ∈ slices)
    (hE : ∀ s ∈ collectionSlices expected, s ∈ slices) :
    settled slices mem₀ (matchArrs S L mem actual expected).mem
      ∧ (actual.length = expected.length → ∀ x ∈ actual ++ expected,
          readMessage (matchArrs S L mem actual expected).mem x
            = normalize (readMessage mem₀ x)) := by
  have hsep1 : separate mem.length slices := by rw [hset.1]; exact hsep
  obtain ⟨hs1, hr1⟩ := settled_sortAll S slices (collectionSlices actual) mem hsep1 hA
  have hsep2 : separate (sortAll S mem (collectionSlices actual)).length slices := by
    rw [hs1.1]; exact hsep1
  obtain ⟨hs2, hr2⟩ := settled_sortAll S slices (collectionSlices expected)
    (sortAll S mem (collectionSlices actual)) hsep2 hE
  rw [matchArrs_eq]
  by_cases hlen : actual.length = expected.length
  · simp only [hlen, ne_eq, not_true_eq_false, if_false]
    refine ⟨settled_trans _ _ _ _ hset (settled_trans _ _ _ _ hs1 hs2), ?_⟩
    intro _ x hx
    have key : readSlice (sortAll S (sortAll S mem (collectionSlices actual))
        (collectionSlices expected)) x.URIs = (readSlice mem₀ x.URIs).map ascending := by
      rcases List.mem_append.1 hx with h | h
      · have hx1 := mem_collectionSlices actual x h
        have h1 := hr1 x.URIs hx1
        rw [settled_normal slices mem₀ mem hset x.URIs (hA _ hx1)] at h1
        rcases hs2.2 x.URIs (hA _ hx1) with a | a
        · rw [a, h1]
        · rw [a, h1, map_ascending_idem]
      · have hx1 := mem_collectionSlices expected x h
        rw [hr2 x.URIs hx1, settled_normal slices _ _ hs1 x.URIs (hE _ hx1),
          settled_normal slices mem₀ mem hset x.URIs (hE _ hx1)]
    simp only [readMessage, normalize, key]
  · rw [if_pos hlen]
    exact ⟨hset, fun h => absurd h hlen⟩

theorem map_readMessage_eq {F : Type} (mem₀ mem' : Mem) (coll : List (RegistryMessage F))
    (h : ∀ x ∈ coll, readMessage mem' x = normalize (readMessage mem₀ x)) :
    coll.map (readMessage mem') = (coll.map (readMessage mem₀)).map normalize := by
  rw [List.map_map]
  exact List.map_congr_left h

/-- On separate slices `matchArrs` returns whether the canonical forms of the two collections, as
they read before the call, are equal. -/
theorem matchArrs_result_separate {F : Type} [DecidableEq F] (S : SortImpl)
    (L : StructFormat F)
    (slices : List Slice) (mem₀ mem : Mem) (actual expected : List (RegistryMessage F))
    (hsep : separate mem₀.length slices) (hset : settled slices mem₀ mem)
    (hA : ∀ s ∈ collectionSlices actual, s ∈ slices)
    (hE : ∀ s ∈ collectionSlices expected, s ∈ slices) :
    (matchArrs S L mem actual expected).result
      = some (decide (canonical S L (actual.map (readMessage mem₀))
          = canonical S L (expected.map (readMessage mem₀)))) := by
  have hmem := (matchArrs_mem_settled S L slices mem₀ mem actual expected hsep hset hA hE).2
  rw [matchArrs_eq] at hmem ⊢
  by_cases hlen : actual.length = expected.length
  · simp only [hlen, ne_eq, not_true_eq_false, if_false] at hmem ⊢
    have hm := hmem trivial
    have ha := map_readMessage_eq mem₀ _ actual
      (fun x hx => hm x (List.mem_append_left _ hx))
    have he := map_readMessage_eq mem₀ _ expected
      (fun x hx => hm x (List.mem_append_right _ hx))
    have na := S.byLess (readMessage (sortAll S (sortAll S mem (collectionSlices actual))
      (collectionSlices expected))) (fun x y => strLess (fmtV L x) (fmtV L y)) actual
    have ne := S.byLess (readMessage (sortAll S (sortAll S mem (collectionSlices actual))
      (collectionSlices expected))) (fun x y => strLess (fmtV L x) (fmtV L y)) expected
    rw [ha] at na
    rw [he] at ne
    have na' : (S.run (ByMessage.lessMessage L
        (sortAll S (sortAll S mem (collectionSlices actual))
          (collectionSlices expected))) actual).map
        (readMessage (sortAll S (sortAll S mem (collectionSlices actual))
          (collectionSlices expected)))
        = canonical S L (actual.map (readMessage mem₀)) := na
    have ne' : (S.run (ByMessage.lessMessage L
        (sortAll S (sortAll S mem (collectionSlices actual))
          (collectionSlices expected))) expected).map
        (readMessage (sortAll S (sortAll S mem (collectionSlices actual))
          (collectionSlices expected)))
        = canonical S L (expected.map (readMessage mem₀)) := ne
    rw [na', ne']
  · have hne : canonical S L (actual.map (readMessage mem₀))
        ≠ canonical S L (expected.map (readMessage mem₀)) := by
      intro h
      apply hlen
      have := congrArg List.length h
      simpa only [canonical_length, List.length_map] using this
    simp only [ne_eq, hlen, not_false_eq_true, if_true, hne, decide_False]

/-- On separate slices, when `matchArrs` returns true the two collections
hold the same message values, addresses in ascending order, as multisets. -/
theorem matchArrs_true_perm {F : Type} [DecidableEq F] (S : SortImpl)
    (L : StructFormat F)
    (slices : List Slice) (mem₀ mem : Mem) (actual expected : List (RegistryMessage F))
    (hsep : separate mem₀.length slices) (hset : settled slices mem₀ mem)
    (hA : ∀ s ∈ collectionSlices actual, s ∈ slices)
    (hE : ∀ s ∈ collectionSlices expected, s ∈ slices)
    (htrue : (matchArrs S L mem actual expected).result = some true) :
    ((actual.map (readMessage mem₀)).map normalize).Perm
      ((expected.map (readMessage mem₀)).map normalize) := by
  have hmem := (matchArrs_mem_settled S L slices mem₀ mem actual expected hsep hset hA hE).2
  rw [matchArrs_eq] at hmem htrue
  by_cases hlen : actual.length = expected.length
  · simp only [hlen, ne_eq, not_true_eq_false, if_false] at hmem htrue
    have hm := hmem trivial
    have ha := map_readMessage_eq mem₀ _ actual
      (fun x hx => hm x (List.mem_append_left _ hx))
    have he := map_readMessage_eq mem₀ _ expected
      (fun x hx => hm x (List.mem_append_right _ hx))
    have heq := of_decide_eq_true (Option.some.inj htrue)
    have pa := (S.perm (ByMessage.lessMessage L
        (sortAll S (sortAll S mem (collectionSlices actual))
          (collectionSlices expected))) actual).map
        (readMessage (sortAll S (sortAll S mem (collectionSlices actual))
          (collectionSlices expected)))
    have pe := (S.perm (ByMessage.lessMessage L
        (sortAll S (sortAll S mem (collectionSlices actual))
          (collectionSlices expected))) expected).map
        (readMessage (sortAll S (sortAll S mem (collectionSlices actual))
          (collectionSlices expected)))
    rw [heq] at pa
    rw [ha] at pa
    rw [he] at pe
    exact pa.symm.trans pe
  · simp only [ne_eq, hlen, not_false_eq_true, if_true] at htrue
    exact absurd (Option.some.inj htrue) (by decide)
/-! ## What `Match` returns -/

theorem Match_unfold {F O : Type} [DecidableEq F] (S : SortImpl) (L : StructFormat F)
    (mem : Mem) (E A : MessagesToEmit F) :
    ((MatchMessagesToEmit E).Match S L mem (AnyValue.messagesToEmit A : AnyValue F O)).result
      = (registrationsOutcome S L mem E A).result.bind fun a =>
        (unregistrationsOutcome S L mem E A).result.bind fun b =>
        (internalRegistrationsOutcome S L mem E A).result.bind fun c =>
        (internalUnregistrationsOutcome S L mem E A).result.bind fun d =>
        some (a && b && c && d, none) :=
  rfl

/-- Given what the four calls return, what `Match` returns. -/
theorem Match_of_results {F O : Type} [DecidableEq F] (S : SortImpl) (L : StructFormat F)
    (mem : Mem) (E A : MessagesToEmit F) (a b c d : Bool)
    (ha : (registrationsOutcome S L mem E A).result = some a)
    (hb : (unregistrationsOutcome S L mem E A).result = some b)
    (hc : (internalRegistrationsOutcome S L mem E A).result = some c)
    (hd : (internalUnregistrationsOutcome S L mem E A).result = some d) :
    ((MatchMessagesToEmit E).Match S L mem (AnyValue.messagesToEmit A : AnyValue F O)).result
      = some (a && b && c && d, none) := by
  rw [Match_unfold, ha, hb, hc, hd]
  rfl

/-- `Match` on a batch returns, with a nil error; `success` is true exactly
when each of the four calls returns true. -/
theorem Match_returns {F O : Type} [DecidableEq F] (S : SortImpl) (L : StructFormat F)
    (mem : Mem) (E A : MessagesToEmit F) :
    ∃ success,
      ((MatchMessagesToEmit E).Match S L mem
          (AnyValue.messagesToEmit A : AnyValue F O)).result = some (success, none)
        ∧ (success = true ↔
          (registrationsOutcome S L mem E A).result = some true
            ∧ (unregistrationsOutcome S L mem E A).result = some true
            ∧ (internalRegistrationsOutcome S L mem E A).result = some true
            ∧ (internalUnregistrationsOutcome S L mem E A).result = some true) := by
  obtain ⟨a, ha⟩ := matchArrs_result_isSome S L mem A.RegistrationMessages
    E.RegistrationMessages
  obtain ⟨b, hb⟩ := matchArrs_result_isSome S L (registrationsOutcome S L mem E A).mem
    A.UnregistrationMessages E.UnregistrationMessages
  obtain ⟨c, hc⟩ := matchArrs_result_isSome S L (unregistrationsOutcome S L mem E A).mem
    A.InternalRegistrationMessages E.InternalRegistrationMessages
  obtain ⟨d, hd⟩ := matchArrs_result_isSome S L
    (internalRegistrationsOutcome S L mem E A).mem
    A.InternalUnregistrationMessages E.InternalUnregistrationMessages
  have ha' : (registrationsOutcome S L mem E A).result = some a := ha
  have hb' : (unregistrationsOutcome S L mem E A).result = some b := hb
  have hc' : (internalRegistrationsOutcome S L mem E A).result = some c := hc
  have hd' : (internalUnregistrationsOutcome S L mem E A).result = some d := hd
  refine ⟨_, Match_of_results S L mem E A a b c d ha' hb' hc' hd', ?_⟩
  rw [ha', hb', hc', hd']
  simp only [Bool.and_eq_true, Option.some.injEq, and_assoc]

theorem mem_batchSlices {F : Type} (A : MessagesToEmit F) (s : Slice) :
    s ∈ batchSlices A ↔
      s ∈ collectionSlices A.RegistrationMessages
        ∨ s ∈ collectionSlices A.UnregistrationMessages
        ∨ s ∈ collectionSlices A.InternalRegistrationMessages
        ∨ s ∈ collectionSlices A.InternalUnregistrationMessages := by
  simp only [batchSlices, List.mem_append, or_assoc]

/-- On separate slices the storage stays settled through the four calls. -/
theorem Match_mem_settled {F : Type} [DecidableEq F] (S : SortImpl) (L : StructFormat F)
    (slices : List Slice) (mem : Mem) (E A : MessagesToEmit F)
    (hsep : separate mem.length slices)
    (hA : ∀ s ∈ batchSlices A, s ∈ slices) (hE : ∀ s ∈ batchSlices E, s ∈ slices) :
    settled slices mem (registrationsOutcome S L mem E A).mem
      ∧ settled slices mem (unregistrationsOutcome S L mem E A).mem
      ∧ settled slices mem (internalRegistrationsOutcome S L mem E A).mem := by
  have h1 := (matchArrs_mem_settled S L slices mem mem A.RegistrationMessages
    E.RegistrationMessages hsep (settled_refl _ _)
    (fun s hs => hA s ((mem_batchSlices A s).2 (Or.inl hs)))
    (fun s hs => hE s ((mem_batchSlices E s).2 (Or.inl hs)))).1
  have h2 := (matchArrs_mem_settled S L slices mem (registrationsOutcome S L mem E A).mem
    A.UnregistrationMessages E.UnregistrationMessages hsep h1
    (fun s hs => hA s ((mem_batchSlices A s).2 (Or.inr (Or.inl hs))))
    (fun s hs => hE s ((mem_batchSlices E s).2 (Or.inr (Or.inl hs))))).1
  have h3 := (matchArrs_mem_settled S L slices mem (unregistrationsOutcome S L mem E A).mem
    A.InternalRegistrationMessages E.InternalRegistrationMessages hsep h2
    (fun s hs => hA s ((mem_batchSlices A s).2 (Or.inr (Or.inr (Or.inl hs)))))
    (fun s hs => hE s ((mem_batchSlices E s).2 (Or.inr (Or.inr (Or.inl hs)))))).1
  exact ⟨h1, h2, h3⟩

/-- On separate slices `Match` returns whether the canonical forms of the four pairs of collections, as
they read before the call, are equal. -/
theorem Match_result_separate {F O : Type} [DecidableEq F] (S : SortImpl)
    (L : StructFormat F)
    (slices : List Slice) (mem : Mem) (E A : MessagesToEmit F)
    (hsep : separate mem.length slices)
    (hA : ∀ s ∈ batchSlices A, s ∈ slices) (hE : ∀ s ∈ batchSlices E, s ∈ slices) :
    ((MatchMessagesToEmit E).Match S L mem (AnyValue.messagesToEmit A : AnyValue F O)).result
      = some
          (decide (canonical S L (A.RegistrationMessages.map (readMessage mem))
              = canonical S L (E.RegistrationMessages.map (readMessage mem)))
            && decide (canonical S L (A.UnregistrationMessages.map (readMessage mem))
              = canonical S L (E.UnregistrationMessages.map (readMessage mem)))
            && decide (canonical S L (A.InternalRegistrationMessages.map (readMessage mem))
              = canonical S L (E.InternalRegistrationMessages.map (readMessage mem)))
            && decide (canonical S L (A.InternalUnregistrationMessages.map (readMessage mem))
              = canonical S L (E.InternalUnregistrationMessages.map (readMessage mem))),
           none) := by
  obtain ⟨h1, h2, h3⟩ := Match_mem_settled S L slices mem E A hsep hA hE
  apply Match_of_results
  · exact matchArrs_result_separate S L slices mem mem _ _ hsep (settled_refl _ _)
      (fun s hs => hA s ((mem_batchSlices A s).2 (Or.inl hs)))
      (fun s hs => hE s ((mem_batchSlices E s).2 (Or.inl hs)))
  · exact matchArrs_result_separate S L slices mem _ _ _ hsep h1
      (fun s hs => hA s ((mem_batchSlices A s).2 (Or.inr (Or.inl hs))))
      (fun s hs => hE s ((mem_batchSlices E s).2 (Or.inr (Or.inl hs))))
  · exact matchArrs_result_separate S L slices mem _ _ _ hsep h2
      (fun s hs => hA s ((mem_batchSlices A s).2 (Or.inr (Or.inr (Or.inl hs)))))
      (fun s hs => hE s ((mem_batchSlices E s).2 (Or.inr (Or.inr (Or.inl hs)))))
  · exact matchArrs_result_separate S L slices mem _ _ _ hsep h3
      (fun s hs => hA s ((mem_batchSlices A s).2 (Or.inr (Or.inr (Or.inr hs)))))
      (fun s hs => hE s ((mem_batchSlices E s).2 (Or.inr (Or.inr (Or.inr hs)))))

theorem Match_true_iff_separate {F O : Type} [DecidableEq F] (S : SortImpl)
    (L : StructFormat F)
    (slices : List Slice) (mem : Mem) (E A : MessagesToEmit F)
    (hsep : separate mem.length slices)
    (hA : ∀ s ∈ batchSlices A, s ∈ slices) (hE : ∀ s ∈ batchSlices E, s ∈ slices) :
    ((MatchMessagesToEmit E).Match S L mem (AnyValue.messagesToEmit A : AnyValue F O)).result
        = some (true, none)
      ↔ canonical S L (A.RegistrationMessages.map (readMessage mem))
          = canonical S L (E.RegistrationMessages.map (readMessage mem))
        ∧ canonical S L (A.UnregistrationMessages.map (readMessage mem))
          = canonical S L (E.UnregistrationMessages.map (readMessage mem))
        ∧ canonical S L (A.InternalRegistrationMessages.map (readMessage mem))
          = canonical S L (E.InternalRegistrationMessages.map (readMessage mem))
        ∧ canonical S L (A.InternalUnregistrationMessages.map (readMessage mem))
          = canonical S L (E.InternalUnregistrationMessages.map (readMessage mem)) := by
  rw [Match_result_separate S L slices mem E A hsep hA hE]
  simp [and_assoc]

theorem collectionsEqual_iff {F : Type} (S : SortImpl) (L : StructFormat F) (mem : Mem)
    (a e : List (RegistryMessage F)) :
    collectionsEqual S L mem a e
      ↔ canonical S L (a.map (readMessage mem)) = canonical S L (e.map (readMessage mem)) := by
  constructor
  · rintro ⟨hlen, hget⟩
    apply List.ext_getElem?
    intro i
    by_cases hi : i < a.length
    · exact hget i hi
    · have h1 : (canonical S L (a.map (readMessage mem))).length ≤ i := by
        rw [canonical_length, List.length_map]; omega
      have h2 : (canonical S L (e.map (readMessage mem))).length ≤ i := by
        rw [canonical_length, List.length_map]; omega
      rw [List.getElem?_eq_none h1, List.getElem?_eq_none h2]
  · intro h
    refine ⟨?_, fun i _ => by rw [h]⟩
    have := congrArg List.length h
    simpa only [canonical_length, List.length_map] using this

theorem mem_append_left_of {α : Type} (xs ys : List α) : ∀ s ∈ xs, s ∈ xs ++ ys :=
  fun _ h => List.mem_append_left _ h

theorem mem_append_right_of {α : Type} (xs ys : List α) : ∀ s ∈ ys, s ∈ xs ++ ys :=
  fun _ h => List.mem_append_right _ h

theorem normalize_eq_of_sameUpToURIOrder {F : Type} (a e : MessageValue F)
    (h : sameUpToURIOrder a e) : normalize a = normalize e := by
  obtain ⟨ua, ra⟩ := a
  obtain ⟨ue, re⟩ := e
  obtain ⟨hr, hu⟩ := h
  simp only at hr
  subst hr
  cases ua with
  | none =>
    cases ue with
    | none => rfl
    | some y => exact absurd hu (by simp [slicePerm])
  | some x =>
    cases ue with
    | none => exact absurd hu (by simp [slicePerm])
    | some y =>
      have hxy : x.Perm y := hu
      simp only [normalize, Option.map_some', ascending_eq_of_perm x y hxy]

theorem map_normalize_eq_of_forall₂ {F : Type} (a e : List (MessageValue F))
    (h : List.Forall₂ sameUpToURIOrder a e) : a.map normalize = e.map normalize := by
  induction h with
  | nil => rfl
  | cons hd _ ih => simp [normalize_eq_of_sameUpToURIOrder _ _ hd, ih]

theorem onlyURIsSorted_normalize {F : Type} (v : MessageValue F) :
    onlyURIsSorted v (normalize v) := by
  obtain ⟨u, r⟩ := v
  cases u with
  | none => simp [onlyURIsSorted, normalize, slicePerm, sliceSorted]
  | some x =>
    refine ⟨rfl, ?_, ?_⟩
    · exact ascending_perm x
    · exact ascending_sorted x

theorem forall₂_onlyURIsSorted {F : Type} (mem mem' : Mem) (coll : List (RegistryMessage F))
    (h : ∀ x ∈ coll, readMessage mem' x = normalize (readMessage mem x)) :
    List.Forall₂ onlyURIsSorted (coll.map (readMessage mem)) (coll.map (readMessage mem')) := by
  induction coll with
  | nil => exact List.Forall₂.nil
  | cons m ms ih =>
    simp only [List.map_cons]
    refine List.Forall₂.cons ?_ (ih (fun x hx => h x (List.mem_cons_of_mem m hx)))
    rw [h m (List.mem_cons_self m ms)]
    exact onlyURIsSorted_normalize _

theorem fmtV_collision {F : Type} (L : StructFormat F) (rest : F) :
    fmtV L ⟨some [[97, 32, 98]], rest⟩ = fmtV L ⟨some [[97], [98]], rest⟩ := by
  have h : fmtStrings (some [[97, 32, 98]]) = fmtStrings (some [[97], [98]]) := by decide
  simp only [fmtV, h]

theorem lessMessage_strictWeakOrder {F : Type} (L : StructFormat F) :
    StrictWeakOrder (fun x y : MessageValue F => strLess (fmtV L x) (fmtV L y)) :=
  ⟨fun _ _ => strLess_asymm _ _, fun _ _ _ => strLess_negTrans _ _ _⟩

/-- Two ascending rearrangements of the same elements are the same list when
the elements are told apart by the order. -/
theorem ascending_perm_unique {α : Type} (less : α → α → Bool) (l₁ l₂ : List α)
    (hp : l₁.Perm l₂)
    (h₁ : l₁.Pairwise (fun a b => less b a = false))
    (h₂ : l₂.Pairwise (fun a b => less b a = false))
    (hsep : ∀ x ∈ l₁, ∀ y ∈ l₁, less x y = false → less y x = false → x = y) :
    l₁ = l₂ := by
  induction l₁ generalizing l₂ with
  | nil => exact (List.Perm.nil_eq hp)
  | cons a t₁ ih =>
    cases l₂ with
    | nil => exact absurd hp.length_eq (by simp)
    | cons b t₂ =>
      rw [List.pairwise_cons] at h₁ h₂
      have hab : a = b := by
        by_contra hne
        have ha : a ∈ t₂ := by
          have := hp.mem_iff.1 (List.mem_cons_self a t₁)
          rcases List.mem_cons.1 this with h | h
          · exact absurd h hne
          · exact h
        have hb : b ∈ t₁ := by
          have := hp.mem_iff.2 (List.mem_cons_self b t₂)
          rcases List.mem_cons.1 this with h | h
          · exact absurd h.symm hne
          · exact h
        exact hne (hsep a (List.mem_cons_self a t₁) b (List.mem_cons_of_mem a hb)
          (h₂.1 a ha) (h₁.1 b hb))
      subst hab
      have hp' : t₁.Perm t₂ := List.Perm.cons_inv hp
      rw [ih t₂ hp' h₁.2 h₂.2
        (fun x hx y hy => hsep x (List.mem_cons_of_mem a hx) y (List.mem_cons_of_mem a hy))]

/-- The canonical forms of two collections with the same message values
agree when values with the same `%v` form are the same value. -/
theorem canonical_eq_of_perm {F : Type} (S : SortImpl) (L : StructFormat F)
    (a e : List (MessageValue F)) (hp : a.Perm e)
    (hinj : ∀ x ∈ a, ∀ y ∈ a,
      fmtV L (normalize x) = fmtV L (normalize y) → normalize x = normalize y) :
    canonical S L a = canonical S L e := by
  have hpa := canonical_perm S L a
  have hpe := canonical_perm S L e
  apply ascending_perm_unique (fun x y : MessageValue F => strLess (fmtV L x) (fmtV L y))
  · exact (hpa.trans (hp.map _)).trans hpe.symm
  · exact S.sorted _ _ (lessMessage_strictWeakOrder L)
  · exact S.sorted _ _ (lessMessage_strictWeakOrder L)
  · intro x hx y hy h1 h2
    obtain ⟨x', hx', rfl⟩ := List.mem_map.1 (hpa.mem_iff.1 hx)
    obtain ⟨y', hy', rfl⟩ := List.mem_map.1 (hpa.mem_iff.1 hy)
    exact hinj x' hx' y' hy' (strLess_total _ _ h1 h2)

/-- What holds of message order: on separate slices, a batch that holds the
message values of the expected batch in another order matches it, provided
that within each collection two values with the same `%v` form (addresses
sorted) are the same value. -/
theorem Match_true_of_perm_of_distinct_forms {F : Type} [DecidableEq F] (O : Type)
    (S : SortImpl) (L : StructFormat F) (mem : Mem)
    (E A : MessagesToEmit F)
    (hsep : separate mem.length (batchSlices A ++ batchSlices E))
    (h1 : (A.RegistrationMessages.map (readMessage mem)).Perm
      (E.RegistrationMessages.map (readMessage mem)))
    (h2 : (A.UnregistrationMessages.map (readMessage mem)).Perm
      (E.UnregistrationMessages.map (readMessage mem)))
    (h3 : (A.InternalRegistrationMessages.map (readMessage mem)).Perm
      (E.InternalRegistrationMessages.map (readMessage mem)))
    (h4 : (A.InternalUnregistrationMessages.map (readMessage mem)).Perm
      (E.InternalUnregistrationMessages.map (readMessage mem)))
    (hinj : ∀ coll ∈ [A.RegistrationMessages, A.UnregistrationMessages,
        A.InternalRegistrationMessages, A.InternalUnregistrationMessages],
      ∀ x ∈ coll.map (readMessage mem), ∀ y ∈ coll.map (readMessage mem),
        fmtV L (normalize x) = fmtV L (normalize y) → normalize x = normalize y) :
    ((MatchMessagesToEmit E).Match S L mem (AnyValue.messagesToEmit A : AnyValue F O)).result
      = some (true, none) := by
  apply (Match_true_iff_separate S L _ mem E A hsep (mem_append_left_of _ _)
    (mem_append_right_of _ _)).2
  refine ⟨canonical_eq_of_perm S L _ _ h1 (hinj _ ?_), canonical_eq_of_perm S L _ _ h2 (hinj _ ?_),
    canonical_eq_of_perm S L _ _ h3 (hinj _ ?_), canonical_eq_of_perm S L _ _ h4 (hinj _ ?_)⟩
  all_goals simp

/-! ## The claims about the matcher -/

/-- C1. For an actual value that is a `MessagesToEmit`, when the `URIs`
slices of the two batches lie within the storage and any two of them are the
same slice or share no element, `Match` returns, and its `success` is true
exactly when the two batches are equal in the sense of the data model: in
each of the four collections, equal lengths and, after sorting each
message's `URIs` ascending and then the messages by their `%v` form, the
same message at every index. -/
theorem Match_success_iff_batchesEqual {F : Type} [DecidableEq F] (O : Type) (S : SortImpl)
    (L : StructFormat F) (mem : Mem) (E A : MessagesToEmit F)
    (hsep : separate mem.length (batchSlices A ++ batchSlices E)) :
    ∃ success,
      ((MatchMessagesToEmit E).Match S L mem
          (AnyValue.messagesToEmit A : AnyValue F O)).result = some (success, none)
        ∧ (success = true ↔ batchesEqual S L mem A E) := by
  refine ⟨_, Match_result_separate S L _ mem E A hsep (mem_append_left_of _ _)
    (mem_append_right_of _ _), ?_⟩
  unfold batchesEqual
  simp only [collectionsEqual_iff, Bool.and_eq_true, decide_eq_true_eq, and_assoc]

/-- C3. When the `URIs` slices of the two batches lie within the storage and
any two of them are the same slice or share no element, and the actual batch
has, position by position in each of the four collections, the messages of
the expected batch with only the order inside `URIs` changed, `Match`
returns true. -/
theorem Match_true_of_URIs_permuted {F : Type} [DecidableEq F] (O : Type) (S : SortImpl)
    (L : StructFormat F) (mem : Mem) (E A : MessagesToEmit F)
    (hsep : separate mem.length (batchSlices A ++ batchSlices E))
    (h1 : List.Forall₂ sameUpToURIOrder (A.RegistrationMessages.map (readMessage mem))
      (E.RegistrationMessages.map (readMessage mem)))
    (h2 : List.Forall₂ sameUpToURIOrder (A.UnregistrationMessages.map (readMessage mem))
      (E.UnregistrationMessages.map (readMessage mem)))
    (h3 : List.Forall₂ sameUpToURIOrder
      (A.InternalRegistrationMessages.map (readMessage mem))
      (E.InternalRegistrationMessages.map (readMessage mem)))
    (h4 : List.Forall₂ sameUpToURIOrder
      (A.InternalUnregistrationMessages.map (readMessage mem))
      (E.InternalUnregistrationMessages.map (readMessage mem))) :
    ((MatchMessagesToEmit E).Match S L mem (AnyValue.messagesToEmit A : AnyValue F O)).result
      = some (true, none) := by
  apply (Match_true_iff_separate S L _ mem E A hsep (mem_append_left_of _ _)
    (mem_append_right_of _ _)).2
  unfold canonical
  rw [map_normalize_eq_of_forall₂ _ _ h1, map_normalize_eq_of_forall₂ _ _ h2,
    map_normalize_eq_of_forall₂ _ _ h3, map_normalize_eq_of_forall₂ _ _ h4]
  exact ⟨rfl, rfl, rfl, rfl⟩

/-- C4. When the `URIs` slices of the two batches lie within the storage and
any two of them are the same slice or share no element, and `Match` returns
true, then in each of the four collections the messages of the actual batch
and those of the expected batch, as they read before the call and each taken
with its `URIs` in ascending order, are the same multiset. -/
theorem Match_true_same_multisets {F : Type} [DecidableEq F] (O : Type) (S : SortImpl)
    (L : StructFormat F) (mem : Mem) (E A : MessagesToEmit F)
    (hsep : separate mem.length (batchSlices A ++ batchSlices E))
    (h : ((MatchMessagesToEmit E).Match S L mem
      (AnyValue.messagesToEmit A : AnyValue F O)).result = some (true, none)) :
    ((A.RegistrationMessages.map (readMessage mem)).map normalize).Perm
        ((E.RegistrationMessages.map (readMessage mem)).map normalize)
      ∧ ((A.UnregistrationMessages.map (readMessage mem)).map normalize).Perm
        ((E.UnregistrationMessages.map (readMessage mem)).map normalize)
      ∧ ((A.InternalRegistrationMessages.map (readMessage mem)).map normalize).Perm
        ((E.InternalRegistrationMessages.map (readMessage mem)).map normalize)
      ∧ ((A.InternalUnregistrationMessages.map (readMessage mem)).map normalize).Perm
        ((E.InternalUnregistrationMessages.map (readMessage mem)).map normalize) := by
  have hA := mem_append_left_of (batchSlices A) (batchSlices E)
  have hE := mem_append_right_of (batchSlices A) (batchSlices E)
  obtain ⟨s1, s2, s3⟩ := Match_mem_settled S L _ mem E A hsep hA hE
  obtain ⟨success, hres, hiff⟩ := Match_returns (O := O) S L mem E A
  rw [hres] at h
  have hs : success = true := congrArg Prod.fst (Option.some.inj h)
  obtain ⟨r1, r2, r3, r4⟩ := hiff.1 hs
  refine ⟨?_, ?_, ?_, ?_⟩
  · exact matchArrs_true_perm S L _ mem mem _ _ hsep (settled_refl _ _)
      (fun s hs => hA s ((mem_batchSlices A s).2 (Or.inl hs)))
      (fun s hs => hE s ((mem_batchSlices E s).2 (Or.inl hs))) r1
  · exact matchArrs_true_perm S L _ mem _ _ _ hsep s1
      (fun s hs => hA s ((mem_batchSlices A s).2 (Or.inr (Or.inl hs))))
      (fun s hs => hE s ((mem_batchSlices E s).2 (Or.inr (Or.inl hs)))) r2
  · exact matchArrs_true_perm S L _ mem _ _ _ hsep s2
      (fun s hs => hA s ((mem_batchSlices A s).2 (Or.inr (Or.inr (Or.inl hs)))))
      (fun s hs => hE s ((mem_batchSlices E s).2 (Or.inr (Or.inr (Or.inl hs))))) r3
  · exact matchArrs_true_perm S L _ mem _ _ _ hsep s3
      (fun s hs => hA s ((mem_batchSlices A s).2 (Or.inr (Or.inr (Or.inr hs)))))
      (fun s hs => hE s ((mem_batchSlices E s).2 (Or.inr (Or.inr (Or.inr hs))))) r4

/-- C6. The four collections are compared one by one: when any of them has a
different length in the actual batch than in the expected one, `Match`
returns false whatever the others hold; and a batch holding a non-empty list
of messages only as external registrations and a batch holding the same list
only as internal registrations do not match, either way round. -/
theorem Match_false_of_length_ne {F : Type} [DecidableEq F] (O : Type) (S : SortImpl)
    (L : StructFormat F) (mem : Mem) (E A : MessagesToEmit F)
    (msgs : List (RegistryMessage F)) :
    (A.RegistrationMessages.length ≠ E.RegistrationMessages.length
        ∨ A.UnregistrationMessages.length ≠ E.UnregistrationMessages.length
        ∨ A.InternalRegistrationMessages.length ≠ E.InternalRegistrationMessages.length
        ∨ A.InternalUnregistrationMessages.length ≠ E.InternalUnregistrationMessages.length →
      ((MatchMessagesToEmit E).Match S L mem
        (AnyValue.messagesToEmit A : AnyValue F O)).result = some (false, none))
    ∧ (msgs ≠ [] →
      ((MatchMessagesToEmit ⟨[], [], msgs, []⟩).Match S L mem
          (AnyValue.messagesToEmit ⟨msgs, [], [], []⟩ : AnyValue F O)).result
          = some (false, none)
        ∧ ((MatchMessagesToEmit ⟨msgs, [], [], []⟩).Match S L mem
          (AnyValue.messagesToEmit ⟨[], [], msgs, []⟩ : AnyValue F O)).result
            = some (false, none)) := by
  have key : ∀ E A : MessagesToEmit F,
      (A.RegistrationMessages.length ≠ E.RegistrationMessages.length
        ∨ A.UnregistrationMessages.length ≠ E.UnregistrationMessages.length
        ∨ A.InternalRegistrationMessages.length ≠ E.InternalRegistrationMessages.length
        ∨ A.InternalUnregistrationMessages.length
            ≠ E.InternalUnregistrationMessages.length) →
      ((MatchMessagesToEmit E).Match S L mem
        (AnyValue.messagesToEmit A : AnyValue F O)).result = some (false, none) := by
    intro E A h
    obtain ⟨success, hres, hiff⟩ := Match_returns (O := O) S L mem E A
    cases success with
    | false => exact hres
    | true =>
      exfalso
      obtain ⟨r1, r2, r3, r4⟩ := hiff.1 rfl
      have no : (some false : Option Bool) ≠ some true := by decide
      rcases h with h | h | h | h
      · unfold registrationsOutcome at r1
        rw [matchArrs_false_of_length_ne S L _ _ _ h] at r1
        exact no r1
      · unfold unregistrationsOutcome at r2
        rw [matchArrs_false_of_length_ne S L _ _ _ h] at r2
        exact no r2
      · unfold internalRegistrationsOutcome at r3
        rw [matchArrs_false_of_length_ne S L _ _ _ h] at r3
        exact no r3
      · unfold internalUnregistrationsOutcome at r4
        rw [matchArrs_false_of_length_ne S L _ _ _ h] at r4
        exact no r4
  refine ⟨key E A, ?_⟩
  intro hm
  have hlen : msgs.length ≠ ([] : List (RegistryMessage F)).length := by
    simpa using hm
  exact ⟨key _ _ (Or.inl hlen), key _ _ (Or.inl hlen.symm)⟩

/-- C7. `Match` returns, and its error is non-nil exactly when the actual
value is not a `MessagesToEmit`; with a non-nil error `success` is false. -/
theorem Match_error_iff_wrong_type {F O : Type} [DecidableEq F] (S : SortImpl)
    (L : StructFormat F) (mem : Mem) (E : MessagesToEmit F) (a : AnyValue F O) :
    ∃ success err,
      ((MatchMessagesToEmit E).Match S L mem a).result = some (success, err)
        ∧ (err ≠ none ↔ ∀ A, a ≠ AnyValue.messagesToEmit A)
        ∧ (err ≠ none → success = false) := by
  cases a with
  | messagesToEmit A =>
    obtain ⟨success, hres, _⟩ := Match_returns (O := O) S L mem E A
    refine ⟨success, none, hres, ?_, ?_⟩
    · constructor
      · intro h; exact absurd rfl h
      · intro h; exact absurd rfl (h A)
    · intro h; exact absurd rfl h
  | other v =>
    refine ⟨false, some MatchError.notMessagesToEmit, rfl, ?_, ?_⟩
    · constructor
      · intro _ A hA; cases hA
      · intro _ h; cases h
    · intro _; rfl

/-- C8. After `matchArrs` has run on two collections of equal length whose
`URIs` slices lie within the storage and any two of which are the same slice
or share no element, each message of the caller's `actual` and `expected`
has, at its old position, its `URIs` in ascending order and a rearrangement
of what it was, and its other fields as before; when the lengths differ the
storage is as before. -/
theorem matchArrs_only_sorts_URIs {F : Type} [DecidableEq F] (S : SortImpl)
    (L : StructFormat F) (mem : Mem) (actual expected : List (RegistryMessage F)) :
    (separate mem.length (collectionSlices actual ++ collectionSlices expected) →
      actual.length = expected.length →
      List.Forall₂ onlyURIsSorted (actual.map (readMessage mem))
          (actual.map (readMessage (matchArrs S L mem actual expected).mem))
        ∧ List.Forall₂ onlyURIsSorted (expected.map (readMessage mem))
          (expected.map (readMessage (matchArrs S L mem actual expected).mem)))
    ∧ (actual.length ≠ expected.length → (matchArrs S L mem actual expected).mem = mem) := by
  constructor
  · intro hsep hlen
    have h := (matchArrs_mem_settled S L _ mem mem actual expected hsep (settled_refl _ _)
      (mem_append_left_of _ _) (mem_append_right_of _ _)).2 hlen
    exact ⟨forall₂_onlyURIsSorted mem _ actual (fun x hx => h x (List.mem_append_left _ hx)),
      forall₂_onlyURIsSorted mem _ expected (fun x hx => h x (List.mem_append_right _ hx))⟩
  · intro hlen
    rw [matchArrs_false_of_length_ne S L mem actual expected hlen]

/-- C10. For indices in range, `ByMessage.Less(i, j)` returns, and is true
exactly when the `%v` form of `a[i]` is lexicographically smaller than that
of `a[j]`; it is irreflexive, asymmetric and transitive, being unordered is
transitive, and two messages are unordered both ways exactly when their
`%v` forms are equal. -/
theorem ByMessage_Less_strict_weak_order {F : Type} (L : StructFormat F) (mem : Mem)
    (a : List (RegistryMessage F)) (i j k : Nat)
    (hi : i < a.length) (hj : j < a.length) (hk : k < a.length) :
    (∃ b, ByMessage.Less L mem a i j = some b
        ∧ (b = true ↔ List.Lex (fun x y : Nat => x < y)
            (fmtV L (readMessage mem a[i])) (fmtV L (readMessage mem a[j]))))
    ∧ ByMessage.Less L mem a i i = some false
    ∧ (ByMessage.Less L mem a i j = some true → ByMessage.Less L mem a j i = some false)
    ∧ (ByMessage.Less L mem a i j = some true → ByMessage.Less L mem a j k = some true →
        ByMessage.Less L mem a i k = some true)
    ∧ (ByMessage.Less L mem a i j = some false → ByMessage.Less L mem a j k = some false →
        ByMessage.Less L mem a i k = some false)
    ∧ (ByMessage.Less L mem a i j = some false ∧ ByMessage.Less L mem a j i = some false
        ↔ fmtV L (readMessage mem a[i]) = fmtV L (readMessage mem a[j])) := by
  have gi : a[i]? = some a[i] := List.getElem?_eq_getElem hi
  have gj : a[j]? = some a[j] := List.getElem?_eq_getElem hj
  have gk : a[k]? = some a[k] := List.getElem?_eq_getElem hk
  simp only [ByMessage.Less, ByMessage.lessMessage, gi, gj, gk, Option.some.injEq]
  refine ⟨⟨_, rfl, strLess_iff_lex _ _⟩, strLess_irrefl _, strLess_asymm _ _,
    strLess_trans _ _ _, strLess_negTrans _ _ _, ?_⟩
  constructor
  · rintro ⟨h1, h2⟩
    exact strLess_total _ _ h1 h2
  · intro h
    rw [h]
    exact ⟨strLess_irrefl _, strLess_irrefl _⟩

/-- C2. Two messages that differ only in `URIs`, `["a b"]` against
`["a", "b"]`, each with elements of its own, have the same `%v` form; the
library's sort leaves them in the order it finds them, so `Match` returns
false on a batch that holds the messages of the expected batch in the other
order. -/
theorem Match_false_on_reordered_batch {F : Type} [DecidableEq F] (O : Type)
    (L : StructFormat F) (rest : F) :
    separate 3 [Slice.window 0 1, Slice.window 1 2]
      ∧ List.Perm
        [(⟨.window 1 2, rest⟩ : RegistryMessage F), ⟨.window 0 1, rest⟩]
        [⟨.window 0 1, rest⟩, ⟨.window 1 2, rest⟩]
      ∧ ((MatchMessagesToEmit
            ⟨[⟨.window 0 1, rest⟩, ⟨.window 1 2, rest⟩], [], [], []⟩).Match
          goSort L [[97, 32, 98], [97], [98]]
          (AnyValue.messagesToEmit
            ⟨[⟨.window 1 2, rest⟩, ⟨.window 0 1, rest⟩], [], [], []⟩ :
            AnyValue F O)).result
        = some (false, none) := by
  refine ⟨by decide, List.Perm.swap _ _ _, ?_⟩
  have hsep : separate ([[97, 32, 98], [97], [98]] : Mem).length
      (batchSlices (⟨[⟨.window 1 2, rest⟩, ⟨.window 0 1, rest⟩], [], [], []⟩ :
          MessagesToEmit F)
        ++ batchSlices (⟨[⟨.window 0 1, rest⟩, ⟨.window 1 2, rest⟩], [], [], []⟩ :
          MessagesToEmit F)) := by
    simp only [batchSlices, collectionSlices, List.map_cons, List.map_nil, List.append_nil,
      List.cons_append, List.nil_append, List.length_cons, List.length_nil]
    decide
  rw [Match_result_separate goSort L _ _ _ _ hsep
    (mem_append_left_of _ _) (mem_append_right_of _ _)]
  have ha1 : ascending [[97, 32, 98]] = [[97, 32, 98]] := by decide
  have ha2 : ascending [[97], [98]] = [[97], [98]] := by decide
  have hv1 : readMessage [[97, 32, 98], [97], [98]] (⟨.window 0 1, rest⟩ : RegistryMessage F)
      = ⟨some [[97, 32, 98]], rest⟩ := rfl
  have hv2 : readMessage [[97, 32, 98], [97], [98]] (⟨.window 1 2, rest⟩ : RegistryMessage F)
      = ⟨some [[97], [98]], rest⟩ := rfl
  have hn1 : normalize (⟨some [[97, 32, 98]], rest⟩ : MessageValue F)
      = ⟨some [[97, 32, 98]], rest⟩ := by
    simp only [normalize, Option.map_some', ha1]
  have hn2 : normalize (⟨some [[97], [98]], rest⟩ : MessageValue F)
      = ⟨some [[97], [98]], rest⟩ := by
    simp only [normalize, Option.map_some', ha2]
  have hc1 : canonical goSort L
      [(⟨some [[97, 32, 98]], rest⟩ : MessageValue F), ⟨some [[97], [98]], rest⟩]
      = [⟨some [[97, 32, 98]], rest⟩, ⟨some [[97], [98]], rest⟩] := by
    simp only [canonical, List.map_cons, List.map_nil, hn1, hn2]
    simp [goSort, insertionSort, sinkDown, fmtV_collision, strLess_irrefl]
  have hc2 : canonical goSort L
      [(⟨some [[97], [98]], rest⟩ : MessageValue F), ⟨some [[97, 32, 98]], rest⟩]
      = [⟨some [[97], [98]], rest⟩, ⟨some [[97, 32, 98]], rest⟩] := by
    simp only [canonical, List.map_cons, List.map_nil, hn1, hn2]
    simp [goSort, insertionSort, sinkDown, fmtV_collision, strLess_irrefl]
  have hne : ¬ ([[97], [98]] : List GoString) = [[97, 32, 98]] := by decide
  simp only [List.map_cons, List.map_nil, hv1, hv2, hc1, hc2]
  simp [hne]
/-! ## The redirect handler -/

/-- The pieces of `strings.Split`: the first is what precedes the first
separator, the others are the pieces of what follows it. -/
theorem stringsSplit_eq (sep : Nat) (s : GoString) :
    stringsSplit sep s
      = s.takeWhile (fun c => decide (c ≠ sep)) ::
        (match s.dropWhile (fun c => decide (c ≠ sep)) with
          | [] => []
          | _ :: r => stringsSplit sep r) := by
  induction s with
  | nil => rfl
  | cons c cs ih =>
    by_cases hc : c = sep
    · have hd : decide (c ≠ sep) = false := decide_eq_false (not_not.2 hc)
      rw [stringsSplit, if_pos hc, List.takeWhile_cons, List.dropWhile_cons]
      simp only [hd]
      rfl
    · have hd : decide (c ≠ sep) = true := decide_eq_true hc
      rw [stringsSplit, if_neg hc, ih, List.takeWhile_cons, List.dropWhile_cons]
      simp only [hd, if_true]

theorem stringsSplit_first (sep : Nat) (s : GoString) :
    (stringsSplit sep s)[0]? = some (s.takeWhile (fun c => decide (c ≠ sep))) := by
  rw [stringsSplit_eq, List.getElem?_cons_zero]

theorem dropWhile_ne_nil_of_mem (sep : Nat) (s : GoString) (h : sep ∈ s) :
    ∃ r, s.dropWhile (fun c => decide (c ≠ sep)) = sep :: r := by
  induction s with
  | nil => cases h
  | cons c cs ih =>
    by_cases hc : c = sep
    · have hd : decide (c ≠ sep) = false := decide_eq_false (not_not.2 hc)
      refine ⟨cs, ?_⟩
      rw [List.dropWhile_cons]
      simp only [hd]
      rw [hc]
      rfl
    · have hd : decide (c ≠ sep) = true := decide_eq_true hc
      have hmem : sep ∈ cs := by
        rcases List.mem_cons.1 h with h' | h'
        · exact absurd h'.symm hc
        · exact h'
      obtain ⟨r, hr⟩ := ih hmem
      refine ⟨r, ?_⟩
      rw [List.dropWhile_cons]
      simp only [hd, if_true]
      exact hr

theorem stringsSplit_second (sep : Nat) (s : GoString) (h : sep ∈ s) :
    (stringsSplit sep s)[1]?
      = some (((s.dropWhile (fun c => decide (c ≠ sep))).drop 1).takeWhile
          (fun c => decide (c ≠ sep))) := by
  obtain ⟨r, hr⟩ := dropWhile_ne_nil_of_mem sep s h
  rw [stringsSplit_eq, hr, List.getElem?_cons_succ]
  simp only [List.drop_succ_cons, List.drop_zero]
  exact stringsSplit_first sep r

theorem hexEscapeNonASCII_ascii (s : GoString) (h : ∀ b ∈ s, b < 128) :
    hexEscapeNonASCII s = s := by
  induction s with
  | nil => rfl
  | cons b s ih =>
    have hb : ¬ 128 ≤ b := by
      have := h b (List.mem_cons_self b s)
      omega
    rw [hexEscapeNonASCII, if_neg hb, ih (fun c hc => h c (List.mem_cons_of_mem b hc))]

/-- C9. For a TLS listen address `T` that contains a `:`, a request with
`Host` header `H` and URL text `u` is answered, without an index going out
of range, with status 301 and a `Location` that is the text `https://`, then
the part of `H` before its first `:` (all of `H` when it has none), then
`:`, then the part of `T` between its first `:` and the next one (or its
end), then `u`, with every byte from `0x80` on replaced by its `%` escape;
so it is that very text when `H`, `T` and `u` are ASCII. -/
theorem redirectHandler_target (T H u : GoString) (hT : 58 ∈ T) :
    initializeServer.redirectHandler T H u
        = some
          { status := 301
            location := hexEscapeNonASCII
              (bytes "https://" ++ H.takeWhile (fun c => decide (c ≠ 58)) ++ [58]
                ++ ((T.dropWhile (fun c => decide (c ≠ 58))).drop 1).takeWhile
                    (fun c => decide (c ≠ 58))
                ++ u) }
      ∧ ((∀ b ∈ H, b < 128) → (∀ b ∈ T, b < 128) → (∀ b ∈ u, b < 128) →
        initializeServer.redirectHandler T H u
          = some
            { status := 301
              location :=
                bytes "https://" ++ H.takeWhile (fun c => decide (c ≠ 58)) ++ [58]
                  ++ ((T.dropWhile (fun c => decide (c ≠ 58))).drop 1).takeWhile
                      (fun c => decide (c ≠ 58))
                  ++ u }) := by
  have h0 := stringsSplit_first 58 H
  have h1 := stringsSplit_second 58 T hT
  have hgen : initializeServer.redirectHandler T H u
        = some
          { status := 301
            location := hexEscapeNonASCII
              (bytes "https://" ++ H.takeWhile (fun c => decide (c ≠ 58)) ++ [58]
                ++ ((T.dropWhile (fun c => decide (c ≠ 58))).drop 1).takeWhile
                    (fun c => decide (c ≠ 58))
                ++ u) } := by
    simp only [initializeServer.redirectHandler, h0, h1, StatusMovedPermanently,
      httpRedirect, Option.bind_eq_bind, Option.some_bind, List.append_assoc]
  refine ⟨hgen, ?_⟩
  intro hH hTa hu
  rw [hgen, hexEscapeNonASCII_ascii]
  intro b hb
  simp only [List.mem_append, List.mem_singleton] at hb
  rcases hb with (((hb | hb) | hb) | hb) | hb
  · have hs : ∀ c ∈ bytes "https://", c < 128 := by decide
    exact hs b hb
  · exact hH b ((List.takeWhile_prefix _).subset hb)
  · omega
  · exact hTa b ((List.dropWhile_suffix _).subset
      ((List.drop_suffix _ _).subset ((List.takeWhile_prefix _).subset hb)))
  · exact hu b hb
/-! ## The theorems at concrete inputs -/

/-- C1 at `sampleExpected` against `sampleActual`: the slices are separate,
`Match` returns true, and the batches are equal in the sense of the data
model. -/
theorem Match_success_iff_batchesEqual_witness :
    separate sampleMem.length (batchSlices sampleActual ++ batchSlices sampleExpected)
      ∧ ((MatchMessagesToEmit sampleExpected).Match goSort hostThenURIs sampleMem
          (AnyValue.messagesToEmit sampleActual : AnyValue GoString Unit)).result
          = some (true, none)
      ∧ batchesEqual goSort hostThenURIs sampleMem sampleActual sampleExpected := by
  obtain ⟨success, hres, hiff⟩ :=
    Match_success_iff_batchesEqual Unit goSort hostThenURIs sampleMem sampleExpected
      sampleActual (by decide)
  have h : ((MatchMessagesToEmit sampleExpected).Match goSort hostThenURIs sampleMem
      (AnyValue.messagesToEmit sampleActual : AnyValue GoString Unit)).result
      = some (true, none) := by decide
  rw [h] at hres
  have hs : success = true := (congrArg Prod.fst (Option.some.inj hres)).symm
  exact ⟨by decide, h, hiff.1 hs⟩

/-- C1 fails on slices that overlap: the expected batch holds `base[0:2]`
and `base[1:3]` of `base = [c b a]`, the actual batch the same two messages
in elements of its own; the batches are equal in the sense of the data
model, and `Match` returns false. -/
theorem Match_success_iff_batchesEqual_overlap :
    batchesEqual goSort hostThenURIs [[99], [98], [97], [99], [98], [98], [97]]
        ⟨[⟨.window 3 2, bytes "h1"⟩, ⟨.window 5 2, bytes "h2"⟩], [], [], []⟩
        ⟨overlapping, [], [], []⟩
      ∧ ((MatchMessagesToEmit ⟨overlapping, [], [], []⟩).Match goSort hostThenURIs
          [[99], [98], [97], [99], [98], [98], [97]]
          (AnyValue.messagesToEmit
            ⟨[⟨.window 3 2, bytes "h1"⟩, ⟨.window 5 2, bytes "h2"⟩], [], [], []⟩ :
            AnyValue GoString Unit)).result = some (false, none) := by
  refine ⟨⟨?_, ?_, ?_, ?_⟩, by decide⟩
  all_goals rw [collectionsEqual_iff]
  all_goals decide

/-- C3 at `sampleExpected` against `sampleActual`. -/
theorem Match_true_of_URIs_permuted_witness :
    separate sampleMem.length (batchSlices sampleActual ++ batchSlices sampleExpected)
      ∧ ((MatchMessagesToEmit sampleExpected).Match goSort hostThenURIs sampleMem
        (AnyValue.messagesToEmit sampleActual : AnyValue GoString Unit)).result
          = some (true, none) :=
  ⟨by decide,
    Match_true_of_URIs_permuted Unit goSort hostThenURIs sampleMem
      sampleExpected sampleActual (by decide)
      (List.Forall₂.cons ⟨rfl, List.Perm.swap _ _ _⟩
        (List.Forall₂.cons ⟨rfl, List.Perm.refl _⟩ List.Forall₂.nil))
      List.Forall₂.nil
      (List.Forall₂.cons ⟨rfl, List.Perm.refl _⟩ List.Forall₂.nil)
      List.Forall₂.nil⟩

/-- C3 fails on slices that overlap: the expected batch holds `base[0:2]`
and `base[1:3]` of `base = [c b a]`, the actual batch the same two messages
with their addresses in the other order; `Match` returns false. -/
theorem Match_true_of_URIs_permuted_overlap :
    List.Forall₂ sameUpToURIOrder
        ([(⟨.window 3 2, bytes "h1"⟩ : RegistryMessage GoString),
            ⟨.window 5 2, bytes "h2"⟩].map
          (readMessage [[99], [98], [97], [98], [99], [97], [98]]))
        (overlapping.map (readMessage [[99], [98], [97], [98], [99], [97], [98]]))
      ∧ ((MatchMessagesToEmit ⟨overlapping, [], [], []⟩).Match goSort hostThenURIs
          [[99], [98], [97], [98], [99], [97], [98]]
          (AnyValue.messagesToEmit
            ⟨[⟨.window 3 2, bytes "h1"⟩, ⟨.window 5 2, bytes "h2"⟩], [], [], []⟩ :
            AnyValue GoString Unit)).result = some (false, none) :=
  ⟨List.Forall₂.cons ⟨rfl, List.Perm.swap _ _ _⟩
      (List.Forall₂.cons ⟨rfl, List.Perm.swap _ _ _⟩ List.Forall₂.nil),
    by decide⟩

/-- C4 at `sampleExpected` against `sampleReordered`. -/
theorem Match_true_same_multisets_witness :
    ((MatchMessagesToEmit sampleExpected).Match goSort hostThenURIs sampleMem
        (AnyValue.messagesToEmit sampleReordered : AnyValue GoString Unit)).result
        = some (true, none)
      ∧ ((sampleReordered.RegistrationMessages.map (readMessage sampleMem)).map
          normalize).Perm
        ((sampleExpected.RegistrationMessages.map (readMessage sampleMem)).map normalize) :=
  ⟨by decide,
    (Match_true_same_multisets Unit goSort hostThenURIs sampleMem sampleExpected
      sampleReordered (by decide) (by decide)).1⟩

/-- C4 fails on slices that overlap: both batches hold `base[0:2]` and
`base[1:3]`, the expected one of `base = [c b a]` and the actual one of
`base = [b c a]`; `Match` returns true, and the second message has the
addresses `a, b` in one batch and `a, c` in the other. -/
theorem Match_true_same_multisets_overlap :
    ((MatchMessagesToEmit ⟨overlapping, [], [], []⟩).Match goSort hostThenURIs
          [[99], [98], [97], [98], [99], [97]]
          (AnyValue.messagesToEmit
            ⟨[⟨.window 3 2, bytes "h1"⟩, ⟨.window 4 2, bytes "h2"⟩], [], [], []⟩ :
            AnyValue GoString Unit)).result = some (true, none)
      ∧ ¬ (([(⟨.window 3 2, bytes "h1"⟩ : RegistryMessage GoString),
              ⟨.window 4 2, bytes "h2"⟩].map
            (readMessage [[99], [98], [97], [98], [99], [97]])).map normalize).Perm
          ((overlapping.map (readMessage [[99], [98], [97], [98], [99], [97]])).map
            normalize) := by
  refine ⟨by decide, ?_⟩
  intro h
  have hmem := h.mem_iff.1 (List.mem_cons_of_mem _ (List.mem_cons_self _ _))
  revert hmem
  decide

/-- C6 at a batch with one external registration fewer, and at one message
held as internal against external registration. -/
theorem Match_false_of_length_ne_witness :
    ((MatchMessagesToEmit sampleExpected).Match goSort hostThenURIs sampleMem
        (AnyValue.messagesToEmit ⟨[sampleApi], [], [sampleApi], []⟩ :
          AnyValue GoString Unit)).result = some (false, none)
      ∧ ((MatchMessagesToEmit ⟨[], [], [sampleApi], []⟩).Match goSort hostThenURIs sampleMem
        (AnyValue.messagesToEmit ⟨[sampleApi], [], [], []⟩ : AnyValue GoString Unit)).result
        = some (false, none) :=
  ⟨(Match_false_of_length_ne Unit goSort hostThenURIs sampleMem sampleExpected
      ⟨[sampleApi], [], [sampleApi], []⟩ []).1 (Or.inl (by decide)),
    ((Match_false_of_length_ne Unit goSort hostThenURIs sampleMem sampleExpected
      sampleExpected [sampleApi]).2 (by decide)).1⟩

/-- C8 at two collections of two messages, and at collections of different
lengths. -/
theorem matchArrs_only_sorts_URIs_witness :
    (matchArrs goSort hostThenURIs sampleMem [sampleWeb, sampleApi]
        [sampleApi, sampleWeb]).mem
        = [bytes "a.io", bytes "b.io", bytes "a.io", bytes "b.io", bytes "c.io"]
      ∧ List.Forall₂ onlyURIsSorted ([sampleWeb, sampleApi].map (readMessage sampleMem))
        ([sampleWeb, sampleApi].map (readMessage
          (matchArrs goSort hostThenURIs sampleMem [sampleWeb, sampleApi]
            [sampleApi, sampleWeb]).mem))
      ∧ (matchArrs goSort hostThenURIs sampleMem [sampleWeb] [sampleApi, sampleWeb]).mem
        = sampleMem :=
  ⟨by decide,
    ((matchArrs_only_sorts_URIs goSort hostThenURIs sampleMem [sampleWeb, sampleApi]
      [sampleApi, sampleWeb]).1 (by decide) (by decide)).1,
    (matchArrs_only_sorts_URIs goSort hostThenURIs sampleMem [sampleWeb]
      [sampleApi, sampleWeb]).2 (by decide)⟩

/-- C8 fails on slices that overlap: `expected` holds `base[0:2]` and
`base[1:3]` of `base = [c b a]`; after the call its first message reads
`[b a]`, which is not in ascending order. -/
theorem matchArrs_only_sorts_URIs_overlap :
    ([(⟨.window 3 2, bytes "h1"⟩ : RegistryMessage GoString),
          ⟨.window 5 2, bytes "h2"⟩]).length = overlapping.length
      ∧ (overlapping.map (readMessage [[99], [98], [97], [99], [98], [98], [97]])).head?
        = some ⟨some [[99], [98]], bytes "h1"⟩
      ∧ (overlapping.map (readMessage
          (matchArrs goSort hostThenURIs [[99], [98], [97], [99], [98], [98], [97]]
            [⟨.window 3 2, bytes "h1"⟩, ⟨.window 5 2, bytes "h2"⟩] overlapping).mem)).head?
        = some ⟨some [[98], [97]], bytes "h1"⟩
      ∧ ¬ List.Forall₂ onlyURIsSorted
          (overlapping.map (readMessage [[99], [98], [97], [99], [98], [98], [97]]))
          (overlapping.map (readMessage
            (matchArrs goSort hostThenURIs [[99], [98], [97], [99], [98], [98], [97]]
              [⟨.window 3 2, bytes "h1"⟩, ⟨.window 5 2, bytes "h2"⟩] overlapping).mem)) := by
  have hm : (matchArrs goSort hostThenURIs [[99], [98], [97], [99], [98], [98], [97]]
      [⟨.window 3 2, bytes "h1"⟩, ⟨.window 5 2, bytes "h2"⟩] overlapping).mem
      = [[98], [97], [99], [98], [99], [97], [98]] := by decide
  refine ⟨rfl, by decide, by rw [hm]; decide, ?_⟩
  rw [hm]
  intro h
  cases h with
  | cons h1 _ =>
    have hs : sliceSorted (some [[98], [97]]) := h1.2.2
    have hp : ([[98], [97]] : List GoString).Pairwise (fun a b => strLess b a = false) := hs
    rw [List.pairwise_cons] at hp
    have := hp.1 [97] (List.mem_cons_self _ _)
    revert this
    decide

/-- C10 at a list of three messages. -/
theorem ByMessage_Less_strict_weak_order_witness :
    ByMessage.Less hostThenURIs sampleMem [sampleWebSorted, sampleApi, sampleWeb] 0 1
        = some true
      ∧ ByMessage.Less hostThenURIs sampleMem [sampleWebSorted, sampleApi, sampleWeb] 1 0
        = some false
      ∧ ByMessage.Less hostThenURIs sampleMem [sampleWebSorted, sampleApi, sampleWeb] 0 0
        = some false :=
  ⟨by decide,
    (ByMessage_Less_strict_weak_order hostThenURIs sampleMem
      [sampleWebSorted, sampleApi, sampleWeb]
      0 1 2 (by decide) (by decide) (by decide)).2.2.1 (by decide),
    (ByMessage_Less_strict_weak_order hostThenURIs sampleMem
      [sampleWebSorted, sampleApi, sampleWeb]
      0 1 2 (by decide) (by decide) (by decide)).2.1⟩

/-- C9 at listen address `0.0.0.0:8443` and `Host: example.com:8080`. -/
theorem redirectHandler_target_witness :
    58 ∈ bytes "0.0.0.0:8443"
      ∧ initializeServer.redirectHandler (bytes "0.0.0.0:8443") (bytes "example.com:8080")
          (bytes "/v1/static/a?b=1")
        = some ⟨301, bytes "https://example.com:8443/v1/static/a?b=1"⟩ :=
  ⟨by decide,
    ((redirectHandler_target (bytes "0.0.0.0:8443") (bytes "example.com:8080")
      (bytes "/v1/static/a?b=1") (by decide)).2 (by decide) (by decide) (by decide)).trans
      (by decide)⟩

/-- C9 fails on a URL with a byte from `0x80` on: for the query `?q=` followed
by the bytes `c3 a9` the `Location` ends in `%c3%a9`, and is not the text
`https://` + host + `:` + port + URL. -/
theorem redirectHandler_target_escaped :
    58 ∈ bytes "0.0.0.0:8443"
      ∧ initializeServer.redirectHandler (bytes "0.0.0.0:8443") (bytes "example.com:8080")
          (bytes "/?q=" ++ [195, 169])
        = some ⟨301, bytes "https://example.com:8443/?q=%c3%a9"⟩
      ∧ bytes "https://example.com:8443/?q=%c3%a9"
        ≠ bytes "https://" ++ bytes "example.com" ++ [58] ++ bytes "8443"
            ++ (bytes "/?q=" ++ [195, 169]) :=
  ⟨by decide, by decide, by decide⟩

end RouteEmitter
